import Mathlib

/-!
Verification of the static packed Hilbert R-tree of `DataStructures/StaticRTree.h`
(project OSRM).  The data model, the bulk-load constructor and the three
nearest-neighbour queries are embedded shallowly:

* machine `int32` coordinates become unbounded `Int` (the build lemmas that
  need the `INT_MAX` / `INT_MIN` sentinels of the default-constructed
  `RectangleInt2D` carry an explicit range hypothesis `coordOK`);
* `float` distances become exact rationals.  The external helper
  `FixedPointCoordinate::ApproximateEuclideanDistance` (declared in
  `osrm/Coordinate.h`, outside the four source files) is modelled from the
  spec as the squared planar Euclidean metric: the spec only requires a
  planar metric used consistently for comparisons, and squaring is a
  monotone change of scale that leaves every comparison made by the
  algorithms unchanged.  `osrm::epsilon_compare` (also external) is modelled
  from the spec with the epsilon constant taken as 0, i.e. exact equality,
  which is the idealisation of exact arithmetic;
* `FixedPointCoordinate::ComputePerpendicularDistance` (external) is
  modelled from the spec: the foot point is the projection of the query
  onto the segment clamped to the endpoints, the ratio is its parameter in
  [0,1], a degenerate segment gives the endpoint and ratio 0; the returned
  `FixedPointCoordinate` foot is the rounded exact foot;
* the Hilbert code / Mercator projection / `EdgeDataT::Centroid` composite
  used only to choose the sort order of the bulk load (all external to the
  four source files) is modelled from the spec as an arbitrary pure key
  function `key : EdgeData -> Int`: the spec states the loader requires
  nothing but purity from it;
* the priority queue (`std::priority_queue` with the reversed comparator,
  i.e. a min-queue on `min_dist`) is modelled as a list together with
  `popMinQ`, which removes the first entry of minimal key;
* file I/O: the leaf file is modelled as its decoded content, a pair of the
  element count and the list of leaf pages; `LoadLeafFromDisk` then simply
  hands back the page stored in the (single-child, `child_is_on_disk`)
  tree node, which in the recursive `RTree` view below is the leaf itself.

The template parameters `BRANCHING_FACTOR` and `LEAF_NODE_SIZE` of the C++
class are ordinary parameters `B` and `L` here, exactly as in the source.
-/

/-- A `FixedPointCoordinate`: fixed-point WGS84 latitude and longitude. -/
structure Coord where
  lat : Int
  lon : Int
deriving DecidableEq, Repr

/-- A point with rational coordinates, used for exact foot points. -/
structure QPoint where
  lat : ℚ
  lon : ℚ
deriving DecidableEq

def Coord.toQ (c : Coord) : QPoint := ⟨(c.lat : ℚ), (c.lon : ℚ)⟩

/-- Squared planar Euclidean distance between rational points. -/
def distSqQ (a b : QPoint) : ℚ := (a.lat - b.lat) ^ 2 + (a.lon - b.lon) ^ 2

/-- Modelled from the spec (section 4.A): `ApproximateEuclideanDistance` is
external to the four source files; it is modelled as the squared planar
Euclidean metric, which induces exactly the same comparisons. -/
def approxDistSq (a b : Coord) : ℚ := distSqQ a.toQ b.toQ

/-- Modelled from the spec (design notes): `osrm::epsilon_compare` is
external; with exact rational arithmetic the documented epsilon constant is
taken as 0, so the comparison is equality. -/
def epsilonCompare (a b : ℚ) : Bool := a == b

/-- The road-segment payload `EdgeDataT` consulted and returned by the index:
endpoint indices `u`, `v` into the coordinate table, the tiny-component tag,
and the routing metadata copied verbatim into phantom nodes. -/
structure EdgeData where
  u : Nat
  v : Nat
  forward_edge_based_node_id : Nat
  reverse_edge_based_node_id : Nat
  name_id : Nat
  forward_weight : Int
  reverse_weight : Int
  forward_offset : Int
  reverse_offset : Int
  packed_geometry_id : Nat
  fwd_segment_position : Nat
  is_in_tiny_cc : Bool
deriving DecidableEq, Repr

/-- `coordinate_list.at(i)`; out-of-range access is modelled totally with a
default coordinate (the queries of the claims only use in-range indices). -/
def coordAt (coords : List Coord) (i : Nat) : Coord := coords.getD i ⟨0, 0⟩

/-- `StaticRTree::RectangleInt2D`. -/
structure RectangleInt2D where
  min_lon : Int
  max_lon : Int
  min_lat : Int
  max_lat : Int
deriving DecidableEq, Repr

namespace RectangleInt2D

/-- The default-constructed rectangle: `min` fields `INT_MAX`, `max` fields
`INT_MIN`. -/
def emptyRect : RectangleInt2D := ⟨2147483647, -2147483648, 2147483647, -2147483648⟩

/-- `RectangleInt2D::Contains` (inclusive on all four sides). -/
def Contains (r : RectangleInt2D) (c : Coord) : Bool :=
  (decide (r.min_lat ≤ c.lat) && decide (c.lat ≤ r.max_lat)) &&
  (decide (r.min_lon ≤ c.lon) && decide (c.lon ≤ r.max_lon))

/-- `RectangleInt2D::Intersects`: tests whether one of the four corners of
`other` is contained in `r` (note: corners of `other` only). -/
def Intersects (r other : RectangleInt2D) : Bool :=
  let upper_left : Coord := ⟨other.max_lat, other.min_lon⟩
  let upper_right : Coord := ⟨other.max_lat, other.max_lon⟩
  let lower_right : Coord := ⟨other.min_lat, other.max_lon⟩
  let lower_left : Coord := ⟨other.min_lat, other.min_lon⟩
  r.Contains upper_left || r.Contains upper_right || r.Contains lower_right ||
    r.Contains lower_left

/-- `RectangleInt2D::MergeBoundingBoxes`: componentwise min / max. -/
def mergeMBR (r other : RectangleInt2D) : RectangleInt2D :=
  ⟨min r.min_lon other.min_lon, max r.max_lon other.max_lon,
   min r.min_lat other.min_lat, max r.max_lat other.max_lat⟩

/-- `RectangleInt2D::GetMinDist`: 0 inside, otherwise the distance to the
side or corner selected by the Moore-region classification of the query
point (the `Direction` switch of the source, written as a decision tree). -/
def GetMinDist (r : RectangleInt2D) (p : Coord) : ℚ :=
  if r.Contains p then 0
  else
    let north := decide (r.max_lat < p.lat)
    let south := decide (p.lat < r.min_lat)
    let east := decide (r.max_lon < p.lon)
    let west := decide (p.lon < r.min_lon)
    if north && east then approxDistSq p ⟨r.max_lat, r.max_lon⟩
    else if north && west then approxDistSq p ⟨r.max_lat, r.min_lon⟩
    else if south && east then approxDistSq p ⟨r.min_lat, r.max_lon⟩
    else if south && west then approxDistSq p ⟨r.min_lat, r.min_lon⟩
    else if north then approxDistSq p ⟨r.max_lat, p.lon⟩
    else if south then approxDistSq p ⟨r.min_lat, p.lon⟩
    else if east then approxDistSq p ⟨p.lat, r.max_lon⟩
    else approxDistSq p ⟨p.lat, r.min_lon⟩

/-- `RectangleInt2D::GetMinMaxDist`: the minimum over the four sides of the
maximum of the distances to that side's two corners. -/
def GetMinMaxDist (r : RectangleInt2D) (p : Coord) : ℚ :=
  let ul := approxDistSq p ⟨r.max_lat, r.min_lon⟩
  let ur := approxDistSq p ⟨r.max_lat, r.max_lon⟩
  let lr := approxDistSq p ⟨r.min_lat, r.max_lon⟩
  let ll := approxDistSq p ⟨r.min_lat, r.min_lon⟩
  min (min (max ul ur) (max ur lr)) (min (max lr ll) (max ll ul))

/-- `min_* ≤ max_*` on both axes, the spec's validity condition. -/
def Valid (r : RectangleInt2D) : Prop := r.min_lon ≤ r.max_lon ∧ r.min_lat ≤ r.max_lat

instance (r : RectangleInt2D) : Decidable r.Valid := by
  unfold Valid; infer_instance

/-- The point of `r` nearest to `p` (componentwise clamp). -/
def clampPt (r : RectangleInt2D) (p : Coord) : Coord :=
  ⟨max r.min_lat (min p.lat r.max_lat), max r.min_lon (min p.lon r.max_lon)⟩

end RectangleInt2D

/-- Membership of a coordinate in a rectangle, as a proposition. -/
def inRect (r : RectangleInt2D) (c : Coord) : Prop :=
  r.min_lat ≤ c.lat ∧ c.lat ≤ r.max_lat ∧ r.min_lon ≤ c.lon ∧ c.lon ≤ r.max_lon

/-- Membership of a rational point in a rectangle. -/
def inRectQ (r : RectangleInt2D) (c : QPoint) : Prop :=
  (r.min_lat : ℚ) ≤ c.lat ∧ c.lat ≤ (r.max_lat : ℚ) ∧
    (r.min_lon : ℚ) ≤ c.lon ∧ c.lon ≤ (r.max_lon : ℚ)

/-- `r` lies inside `r2` boundwise (the relation between a child MBR and its
parent's merged MBR). -/
def rectSub (r r2 : RectangleInt2D) : Prop :=
  r2.min_lon ≤ r.min_lon ∧ r.max_lon ≤ r2.max_lon ∧
    r2.min_lat ≤ r.min_lat ∧ r.max_lat ≤ r2.max_lat

/-- Modelled from the spec (section 4.A): the parameter of the projection of
`p` onto the segment `u v`, clamped to `[0,1]`; 0 for a degenerate segment. -/
def perpParam (u v p : Coord) : ℚ :=
  if u = v then 0
  else
    let dx : ℚ := ((v.lon - u.lon : Int) : ℚ)
    let dy : ℚ := ((v.lat - u.lat : Int) : ℚ)
    let t0 : ℚ :=
      (((p.lon - u.lon : Int) : ℚ) * dx + ((p.lat - u.lat : Int) : ℚ) * dy) /
        (dx ^ 2 + dy ^ 2)
    max 0 (min 1 t0)

/-- The exact (rational) foot point of `p` on the segment `u v`. -/
def perpFootQ (u v p : Coord) : QPoint :=
  ⟨(u.lat : ℚ) + perpParam u v p * ((v.lat - u.lat : Int) : ℚ),
   (u.lon : ℚ) + perpParam u v p * ((v.lon - u.lon : Int) : ℚ)⟩

/-- Modelled from the spec (section 4.A): the perpendicular distance of `p`
to the segment `u v` in the modelled (squared planar) metric. -/
def perpDistSq (u v p : Coord) : ℚ := distSqQ p.toQ (perpFootQ u v p)

/-- The foot point as a `FixedPointCoordinate` (rounded exact foot). -/
def perpFoot (u v p : Coord) : Coord :=
  ⟨round (perpFootQ u v p).lat, round (perpFootQ u v p).lon⟩

/-- Perpendicular distance of the query point to an indexed segment. -/
def segDistSq (coords : List Coord) (p : Coord) (e : EdgeData) : ℚ :=
  perpDistSq (coordAt coords e.u) (coordAt coords e.v) p

/-- Foot point of the query point on an indexed segment. -/
def segFoot (coords : List Coord) (p : Coord) (e : EdgeData) : Coord :=
  perpFoot (coordAt coords e.u) (coordAt coords e.v) p

/-- The `SPECIAL_NODEID` sentinel (`std::numeric_limits<unsigned>::max()`). -/
def SPECIAL_NODEID : Nat := 4294967295

/-- The result record built from the winning segment: the subset of
`PhantomNode` the index actually writes (the travel-mode bytes, copied
verbatim like the rest of the metadata, are omitted). -/
structure PhantomNode where
  forward_node_id : Nat
  reverse_node_id : Nat
  name_id : Nat
  forward_weight : Int
  reverse_weight : Int
  forward_offset : Int
  reverse_offset : Int
  packed_geometry_id : Nat
  location : Coord
  fwd_segment_position : Nat
deriving DecidableEq, Repr

/-- The `PhantomNode` constructor call sites: metadata copied from the
segment, location = foot point. -/
def mkPhantomNode (e : EdgeData) (foot : Coord) : PhantomNode :=
  ⟨e.forward_edge_based_node_id, e.reverse_edge_based_node_id, e.name_id,
   e.forward_weight, e.reverse_weight, e.forward_offset, e.reverse_offset,
   e.packed_geometry_id, foot, e.fwd_segment_position⟩

/-- `StaticRTree::FixUpRoundingIssue`: snap the phantom location to the
input coordinate on an axis where they differ by exactly one fixed-point
unit. -/
def FixUpRoundingIssue (input : Coord) (ph : PhantomNode) : PhantomNode :=
  let lon2 := if (input.lon - ph.location.lon).natAbs = 1 then input.lon else ph.location.lon
  let lat2 := if (input.lat - ph.location.lat).natAbs = 1 then input.lat else ph.location.lat
  { ph with location := ⟨lat2, lon2⟩ }

/-- Truncation toward zero of a rational, the effect of the C++ assignment
of a `float` product back into the `int` weight field. -/
def truncQ (q : ℚ) : Int := q.num.tdiv (q.den : Int)

/-- `StaticRTree::SetForwardAndReverseWeightsOnPhantomNode`: ratio =
`min(1, dist(u, foot) / dist(u, v))` in the modelled metric; the forward
weight is multiplied by `ratio` unless the forward id is the sentinel, the
reverse weight by `1 - ratio` unless the reverse id is the sentinel. -/
def SetForwardAndReverseWeightsOnPhantomNode (coords : List Coord) (nearest_edge : EdgeData)
    (ph : PhantomNode) : PhantomNode :=
  let distance_1 := approxDistSq (coordAt coords nearest_edge.u) ph.location
  let distance_2 := approxDistSq (coordAt coords nearest_edge.u) (coordAt coords nearest_edge.v)
  let ratio := min 1 (distance_1 / distance_2)
  let fw := if SPECIAL_NODEID ≠ ph.forward_node_id
    then truncQ ((ph.forward_weight : ℚ) * ratio) else ph.forward_weight
  let rw := if SPECIAL_NODEID ≠ ph.reverse_node_id
    then truncQ ((ph.reverse_weight : ℚ) * (1 - ratio)) else ph.reverse_weight
  { ph with forward_weight := fw, reverse_weight := rw }

/-- The in-memory tree as consumed by the queries: a node is either a
leaf-referencing node (`child_is_on_disk`, one leaf page of segments) or an
inner node with its children; every node carries its
`minimum_bounding_rectangle`. -/
inductive RTree where
  | leafN (mbr : RectangleInt2D) (objects : List EdgeData)
  | innerN (mbr : RectangleInt2D) (children : List RTree)
deriving Repr

/-- The node's `minimum_bounding_rectangle`. -/
def RTree.mbrOf : RTree → RectangleInt2D
  | .leafN mbr _ => mbr
  | .innerN mbr _ => mbr

mutual

/-- All segments stored below a node. -/
def RTree.segsOf : RTree → List EdgeData
  | .leafN _ objs => objs
  | .innerN _ cs => segsOfList cs

/-- All segments stored below a list of nodes. -/
def segsOfList : List RTree → List EdgeData
  | [] => []
  | c :: cs => RTree.segsOf c ++ segsOfList cs

end

mutual

/-- Weight of a node (its total entry count plus one), the fuel measure of
the traversals. -/
def RTree.weight : RTree → Nat
  | .leafN _ objs => objs.length + 1
  | .innerN _ cs => weightList cs + 1

/-- Total weight of a list of nodes. -/
def weightList : List RTree → Nat
  | [] => 0
  | c :: cs => RTree.weight c + weightList cs

end

/-- Comparison `a < b` where `b : Option ℚ` stands for a float that may be
the `FLT_MAX` sentinel (`none` = infinity). -/
def ltInf (a : ℚ) : Option ℚ → Bool
  | none => true
  | some c => decide (a < c)

/-- Comparison `b < a` where `b` may be the infinity sentinel. -/
def gtInf (a : ℚ) : Option ℚ → Bool
  | none => false
  | some c => decide (c < a)

/-- `epsilon_compare` against a possibly-infinite threshold. -/
def epsEqInf (a : ℚ) : Option ℚ → Bool
  | none => false
  | some c => epsilonCompare a c

/-- `min` of a possibly-infinite accumulator and a finite value. -/
def minInf : Option ℚ → ℚ → Option ℚ
  | none, a => some a
  | some c, a => some (min c a)

/-- The min-priority queue (`std::priority_queue` with the reversed
comparator): pop removes the first entry of minimal key. -/
def popMinQ {α : Type} : List (ℚ × α) → Option ((ℚ × α) × List (ℚ × α))
  | [] => none
  | x :: xs =>
    match popMinQ xs with
    | none => some (x, [])
    | some (m, rest) => if x.1 ≤ m.1 then some (x, xs) else some (m, x :: rest)

/-- Total weight of the entries of a queue under an entry weight. -/
def entrySum {α : Type} (w : α → Nat) (q : List (ℚ × α)) : Nat :=
  (q.map (fun en => w en.2)).sum

/-- The state threaded through `FindPhantomNodeForCoordinate`: the two
pruning thresholds (`FLT_MAX` = `none`) and the current winner (phantom and
`nearest_edge`); `res = none` models the initial invalid
`result_phantom_node.location`. -/
structure FindState where
  min_dist : Option ℚ
  min_max_dist : Option ℚ
  res : Option (PhantomNode × EdgeData)
deriving Repr

/-- The per-leaf object loop of `FindPhantomNodeForCoordinate`: skip
filtered tiny-component segments, and on a strict epsilon-gated improvement
record the new minimum, the phantom node and the nearest edge. -/
def scanLeaf (coords : List Coord) (p : Coord) (ignoreTiny : Bool) :
    List EdgeData → FindState → FindState
  | [], st => st
  | e :: objs, st =>
    if ignoreTiny && e.is_in_tiny_cc then scanLeaf coords p ignoreTiny objs st
    else
      let pd := segDistSq coords p e
      if ltInf pd st.min_dist && !epsEqInf pd st.min_dist then
        scanLeaf coords p ignoreTiny objs
          { st with min_dist := some pd
                    res := some (mkPhantomNode e (segFoot coords p e), e) }
      else scanLeaf coords p ignoreTiny objs st

/-- `StaticRTree::ExploreTreeNode`: walk the children, lower the running
MINMAXDIST bound by each child's `GetMinMaxDist`, and collect the push of
every child not pruned by the (strict) MINMAXDIST / current-minimum tests;
returns the new bound and the pushes in child order. -/
def exploreTreeNode (p : Coord) (min_dist : Option ℚ) :
    List RTree → Option ℚ → Option ℚ × List (ℚ × RTree)
  | [], mmd => (mmd, [])
  | c :: cs, mmd =>
    let lower_bound_to_element := (RTree.mbrOf c).GetMinDist p
    let upper_bound_to_element := (RTree.mbrOf c).GetMinMaxDist p
    let mmd2 := minInf mmd upper_bound_to_element
    if gtInf lower_bound_to_element mmd2 then exploreTreeNode p min_dist cs mmd2
    else if gtInf lower_bound_to_element min_dist then exploreTreeNode p min_dist cs mmd2
    else
      let r := exploreTreeNode p min_dist cs mmd2
      (r.1, (lower_bound_to_element, c) :: r.2)

/-- The traversal loop of `FindPhantomNodeForCoordinate`.  The fuel
argument only bounds the iteration count; `(RTree.weight T) + 1` always
suffices because every iteration removes at least one unit of queue weight
(`none` = ran out of fuel, never the case for the supplied fuel). -/
def findGo (coords : List Coord) (p : Coord) (ignoreTiny : Bool) :
    Nat → FindState → List (ℚ × RTree) → Option FindState
  | 0, _, _ => none
  | fuel + 1, st, q =>
    match popMinQ q with
    | none => some st
    | some (c, rest) =>
      if gtInf c.1 st.min_max_dist || gtInf c.1 st.min_dist then
        findGo coords p ignoreTiny fuel st rest
      else
        match c.2 with
        | .leafN _ objs =>
          findGo coords p ignoreTiny fuel (scanLeaf coords p ignoreTiny objs st) rest
        | .innerN _ cs =>
          let ex := exploreTreeNode p st.min_dist cs st.min_max_dist
          findGo coords p ignoreTiny fuel { st with min_max_dist := ex.1 } (rest ++ ex.2)

/-- `StaticRTree::FindPhantomNodeForCoordinate` over the in-memory tree:
tiny components are filtered exactly when `zoom_level ≤ 14`; if the loop
set a result it is post-processed by the rounding fix-up and the weight
split; the winning `nearest_edge` is returned alongside. -/
def FindPhantomNodeForCoordinate (coords : List Coord) (T : RTree) (p : Coord)
    (zoom : Nat) : Option (PhantomNode × EdgeData) :=
  match findGo coords p (decide (zoom ≤ 14)) (T.weight + 1)
      ⟨none, none, none⟩ [((0 : ℚ), T)] with
  | none => none
  | some fs =>
    match fs.res with
    | none => none
    | some (ph, e) =>
      some (SetForwardAndReverseWeightsOnPhantomNode coords e (FixUpRoundingIssue p ph), e)

/-- A heterogeneous queue entry of the incremental query: a tree node or a
road segment (`mapbox::util::variant<TreeNode, EdgeDataT>`). -/
inductive QEntry where
  | nodeE (t : RTree)
  | segE (e : EdgeData)
deriving Repr

/-- Weight of an incremental queue entry. -/
def QEntry.weight : QEntry → Nat
  | .nodeE t => t.weight
  | .segE _ => 1

/-- State of the incremental query: `min_found_distances` (entries may be
the `FLT_MAX` sentinel), the two per-component acceptance counters, the
`inspected_segments` counter, and the accepted results in order (each with
its segment and its exact perpendicular distance). -/
structure IncState where
  minFound : List (Option ℚ)
  bigCount : Nat
  tinyCount : Nat
  inspected : Nat
  results : List (EdgeData × PhantomNode × ℚ)
deriving Repr

/-- Outcome of the incremental loop: finished normally, performed an
out-of-bounds vector access (`min_found_distances`), or ran out of fuel
(never the case for the supplied fuel). -/
inductive IncOut where
  | ok (rs : List (EdgeData × PhantomNode × ℚ))
  | oob
  | fuelOut
deriving Repr, DecidableEq

/-- Leaf expansion of the incremental query: push every object with its
exact perpendicular distance when that distance is below the current
pruning threshold. -/
def leafPushes (coords : List Coord) (p : Coord) (curMin : Option ℚ) :
    List EdgeData → List (ℚ × QEntry)
  | [] => []
  | e :: objs =>
    let pd := segDistSq coords p e
    if ltInf pd curMin then (pd, QEntry.segE e) :: leafPushes coords p curMin objs
    else leafPushes coords p curMin objs

/-- Inner-node expansion of the incremental query: push every child with
its MBR MINDIST when it is below the current pruning threshold. -/
def childPushes (p : Coord) (curMin : Option ℚ) : List RTree → List (ℚ × QEntry)
  | [] => []
  | c :: cs =>
    let lb := (RTree.mbrOf c).GetMinDist p
    if ltInf lb curMin then (lb, QEntry.nodeE c) :: childPushes p curMin cs
    else childPushes p curMin cs

/-- The loop of `IncrementalFindPhantomNodeForCoordinate` (lines 646-858).
Every vector access of `min_found_distances` is bounds-checked and an
out-of-range access surfaces as `IncOut.oob`; the queue flush
(`traversal_queue = {}`) on `k` big results or on the
`max_checked_segments` fuse empties the queue; the `continue` of a pruned
pop or of a skipped segment bypasses the flush check, as in the source. -/
def incGo (coords : List Coord) (p : Coord) (k maxChecked : Nat) :
    Nat → IncState → List (ℚ × QEntry) → IncOut
  | 0, _, _ => .fuelOut
  | fuel + 1, st, q =>
    match popMinQ q with
    | none => .ok st.results
    | some (c, rest) =>
      match st.minFound[k - 1]? with
      | none => .oob
      | some curMin =>
        if gtInf c.1 curMin then
          incGo coords p k maxChecked fuel st rest
        else
          match c.2 with
          | .nodeE (.leafN _ objs) =>
            let q2 := rest ++ leafPushes coords p curMin objs
            incGo coords p k maxChecked fuel st
              (if k = st.bigCount || maxChecked ≤ st.inspected then [] else q2)
          | .nodeE (.innerN _ cs) =>
            let q2 := rest ++ childPushes p curMin cs
            incGo coords p k maxChecked fuel st
              (if k = st.bigCount || maxChecked ≤ st.inspected then [] else q2)
          | .segE e =>
            let st1 := { st with inspected := st.inspected + 1 }
            if k = st1.bigCount && !e.is_in_tiny_cc then
              incGo coords p k maxChecked fuel st1 rest
            else if k = st1.tinyCount && e.is_in_tiny_cc then
              incGo coords p k maxChecked fuel st1 rest
            else
              let pd := segDistSq coords p e
              if ltInf pd curMin && !epsEqInf pd curMin then
                let ph := SetForwardAndReverseWeightsOnPhantomNode coords e
                  (FixUpRoundingIssue p (mkPhantomNode e (segFoot coords p e)))
                if e.is_in_tiny_cc then
                  let st2 := { st1 with results := st1.results ++ [(e, ph, pd)]
                                        tinyCount := st1.tinyCount + 1 }
                  incGo coords p k maxChecked fuel st2
                    (if k = st2.bigCount || maxChecked ≤ st2.inspected then [] else rest)
                else
                  if st1.bigCount < st1.minFound.length then
                    let st2 := { st1 with results := st1.results ++ [(e, ph, pd)]
                                          minFound := st1.minFound.set st1.bigCount (some pd)
                                          bigCount := st1.bigCount + 1 }
                    incGo coords p k maxChecked fuel st2
                      (if k = st2.bigCount || maxChecked ≤ st2.inspected then [] else rest)
                  else .oob
              else
                incGo coords p k maxChecked fuel st1
                  (if k = st1.bigCount || maxChecked ≤ st1.inspected then [] else rest)

/-- The incremental traversal from the root.  The two source functions
`IncrementalFindPhantomNodeForCoordinate` and
`IncrementalFindPhantomNodeForCoordinateWithDistance` run this identical
traversal (they differ only in dead statistics counters and in the shape of
the appended record), so it is embedded once. -/
def incrementalCore (coords : List Coord) (T : RTree) (p : Coord)
    (k maxChecked : Nat) : IncOut :=
  incGo coords p k maxChecked (T.weight + 1)
    ⟨List.replicate k none, 0, 0, 0, []⟩ [((0 : ℚ), QEntry.nodeE T)]

/-- `StaticRTree::IncrementalFindPhantomNodeForCoordinate`: the appended
phantom nodes (the `zoom_level` parameter is accepted and, as in the
source, never read). -/
def IncrementalFindPhantomNodeForCoordinate (coords : List Coord) (T : RTree)
    (p : Coord) (zoom k maxChecked : Nat) : Option (List PhantomNode) :=
  match incrementalCore coords T p k maxChecked with
  | .ok rs => some (rs.map (fun r => r.2.1))
  | _ => none

/-- `StaticRTree::IncrementalFindPhantomNodeForCoordinateWithDistance`: the
appended `(phantom, distance)` pairs (the `zoom_level` parameter is
accepted and, as in the source, never read). -/
def IncrementalFindPhantomNodeForCoordinateWithDistance (coords : List Coord)
    (T : RTree) (p : Coord) (zoom k maxChecked : Nat) :
    Option (List (PhantomNode × ℚ)) :=
  match incrementalCore coords T p k maxChecked with
  | .ok rs => some (rs.map (fun r => (r.2.1, r.2.2)))
  | _ => none

/-- Stable insertion by key, modelling one admissible result of
`tbb::parallel_sort` on the `(hilbert, index)` wrappers (ties in arbitrary
order; the claims hold for any such order). -/
def insertByKey (key : EdgeData → Int) (e : EdgeData) : List EdgeData → List EdgeData
  | [] => [e]
  | x :: xs => if key e ≤ key x then e :: x :: xs else x :: insertByKey key e xs

/-- Sort the input segments by ascending key. -/
def sortByKey (key : EdgeData → Int) (l : List EdgeData) : List EdgeData :=
  l.foldr (insertByKey key) []

/-- Worker of `chunkList`, structurally recursive on a chunk-count bound. -/
def chunkListGo {α : Type} (n : Nat) : Nat → List α → List (List α)
  | 0, _ => []
  | _ + 1, [] => []
  | fuel + 1, x :: xs => (x :: xs).take n :: chunkListGo n fuel ((x :: xs).drop n)

/-- Split a list into consecutive chunks of `n` (the packing loops of the
constructor); `n = 0` would not terminate in the source and yields `[]`
here.  The inner fuel (the list length) is only a structural bound on the
number of chunks. -/
def chunkList {α : Type} (n : Nat) (l : List α) : List (List α) :=
  match n with
  | 0 => []
  | _ + 1 => chunkListGo n l.length l

/-- One step of `InitializeMBRectangle`: widen the rectangle by the two
endpoint coordinates of one object. -/
def mbrStep (coords : List Coord) (r : RectangleInt2D) (e : EdgeData) : RectangleInt2D :=
  let cu := coordAt coords e.u
  let cv := coordAt coords e.v
  ⟨min r.min_lon (min cu.lon cv.lon), max r.max_lon (max cu.lon cv.lon),
   min r.min_lat (min cu.lat cv.lat), max r.max_lat (max cu.lat cv.lat)⟩

/-- `RectangleInt2D::InitializeMBRectangle` over the objects of one leaf
page, starting from the default-constructed rectangle. -/
def initMBR (coords : List Coord) (objs : List EdgeData) : RectangleInt2D :=
  objs.foldl (mbrStep coords) RectangleInt2D.emptyRect

/-- The MBR of a parent tree node: `MergeBoundingBoxes` of all children
folded over the default-constructed rectangle. -/
def mergedMBR (rs : List RectangleInt2D) : RectangleInt2D :=
  rs.foldl RectangleInt2D.mergeMBR RectangleInt2D.emptyRect

/-- The leaf level of the build: the sorted input packed into pages of
`L`, each page represented by its leaf-referencing node. -/
def leafLevel (coords : List Coord) (L : Nat) (sorted : List EdgeData) : List RTree :=
  (chunkList L sorted).map (fun c => RTree.leafN (initMBR coords c) c)

/-- One round of the level-packing loop: group `B` consecutive nodes under
a parent whose MBR merges the children's. -/
def packLevel (B : Nat) (nodes : List RTree) : List RTree :=
  (chunkList B nodes).map (fun g => RTree.innerN (mergedMBR (g.map RTree.mbrOf)) g)

/-- The `while (1 < tree_nodes_in_level.size())` loop: pack levels until a
single root remains.  An empty level models the source's broken-tree
assertion failure / out-of-bounds root access; the fuel only bounds the
level count (`segs.length + 1` always suffices for `B ≥ 2`). -/
def packToRoot (B : Nat) : Nat → List RTree → Option RTree
  | _, [t] => some t
  | _, [] => none
  | 0, _ :: _ :: _ => none
  | fuel + 1, t1 :: t2 :: ts => packToRoot B fuel (packLevel B (t1 :: t2 :: ts))

/-- The bulk-load constructor, as the in-memory tree the queries run on:
sort by the (spec-modelled) key, pack leaves of `L`, pack levels of `B`.
`L` is `LEAF_NODE_SIZE`, `B` is `BRANCHING_FACTOR`. -/
def buildRTree (L B : Nat) (key : EdgeData → Int) (segs : List EdgeData)
    (coords : List Coord) : Option RTree :=
  packToRoot B (segs.length + 1) (leafLevel coords L (sortByKey key segs))

/-- An on-disk leaf page: `object_count` and the stored objects. -/
structure LeafNodeRec where
  object_count : Nat
  objects : List EdgeData
deriving DecidableEq, Repr

/-- A stored `StaticRTree::TreeNode` record: MBR, `child_count` (31 bits),
`child_is_on_disk` (1 bit), and the `children` id array (only the written
prefix is modelled; unwritten slots of the C++ array are indeterminate). -/
structure TreeNodeRec where
  minimum_bounding_rectangle : RectangleInt2D
  child_count : Nat
  child_is_on_disk : Bool
  children : List Nat
deriving DecidableEq, Repr

/-- The leaf pages written to the leaf file, in sorted order. -/
def leafPages (L : Nat) (key : EdgeData → Int) (segs : List EdgeData) : List LeafNodeRec :=
  (chunkList L (sortByKey key segs)).map (fun c => ⟨c.length, c⟩)

/-- The leaf-referencing tree nodes emitted by the leaf-packing loop: the
default-constructed node (`child_count = 0`, note: never incremented in the
source) with `child_is_on_disk = true` and `children[0]` the running page
index. -/
def leafTreeNodes (coords : List Coord) (L : Nat) (sorted : List EdgeData) : List TreeNodeRec :=
  (chunkList L sorted).enum.map
    (fun ci => ⟨initMBR coords ci.2, 0, true, [ci.1]⟩)

/-- Worker of `packParents`: walk the groups of one level; each group's
nodes are appended to `m_search_tree` (the accumulator) and the parent
records their positions; the parent is default-constructed
(`child_is_on_disk = false`) with `child_count` the group size. -/
def packParentsGo : List TreeNodeRec → List (List TreeNodeRec) →
    List TreeNodeRec × List TreeNodeRec
  | acc, [] => (acc, [])
  | acc, g :: gs =>
    let parent : TreeNodeRec :=
      ⟨mergedMBR (g.map TreeNodeRec.minimum_bounding_rectangle),
       g.length, false, (List.range g.length).map (fun j => acc.length + j)⟩
    let r := packParentsGo (acc ++ g) gs
    (r.1, parent :: r.2)

/-- One round of the level-packing loop on stored records. -/
def packParents (B : Nat) (acc : List TreeNodeRec) (level : List TreeNodeRec) :
    List TreeNodeRec × List TreeNodeRec :=
  packParentsGo acc (chunkList B level)

/-- The level loop on stored records, returning `m_search_tree` and the
root (or `none` for the empty level, the broken-tree assertion / OOB). -/
def packAllLevels (B : Nat) : Nat → List TreeNodeRec → List TreeNodeRec →
    Option (List TreeNodeRec × TreeNodeRec)
  | _, acc, [t] => some (acc, t)
  | _, _, [] => none
  | 0, _, _ :: _ :: _ => none
  | fuel + 1, acc, t1 :: t2 :: ts =>
    let s := packParents B acc (t1 :: t2 :: ts)
    packAllLevels B fuel s.1 s.2

/-- The reverse-and-renumber step on one node: remap the first
`child_count` child ids `old` to `n - old - 1`. -/
def renumberNode (n : Nat) (nd : TreeNodeRec) : TreeNodeRec :=
  { nd with children :=
      nd.children.enum.map (fun jc => if jc.1 < nd.child_count then n - jc.2 - 1 else jc.2) }

/-- The stored search-tree array produced by the constructor: leaf nodes,
level packing, append the root, reverse, renumber. -/
def buildSearchTreeArray (L B : Nat) (key : EdgeData → Int) (segs : List EdgeData)
    (coords : List Coord) : Option (List TreeNodeRec) :=
  match packAllLevels B (segs.length + 1) [] (leafTreeNodes coords L (sortByKey key segs)) with
  | none => none
  | some (acc, root) =>
    let tree := (acc ++ [root]).reverse
    some (tree.map (renumberNode tree.length))

/-- The whole constructor as observed on persistent state: the leaf file
(element-count header and pages, written unconditionally before any
emptiness check) and the search-tree array (`none` models the broken-tree
assertion failure / out-of-bounds root access reached on empty input). -/
def buildStaticRTree (L B : Nat) (key : EdgeData → Int) (segs : List EdgeData)
    (coords : List Coord) : (Nat × List LeafNodeRec) × Option (List TreeNodeRec) :=
  ((segs.length, leafPages L key segs), buildSearchTreeArray L B key segs coords)

/-- The machine `int32` range of a stored coordinate: the build lemmas use
it to discharge the `INT_MAX` / `INT_MIN` sentinels of the
default-constructed rectangle. -/
def coordOK (c : Coord) : Prop :=
  -2147483648 ≤ c.lat ∧ c.lat ≤ 2147483647 ∧ -2147483648 ≤ c.lon ∧ c.lon ≤ 2147483647

instance (c : Coord) : Decidable (coordOK c) := by
  unfold coordOK; infer_instance

/-- The result list of an incremental run (empty for the failure outcomes). -/
def IncOut.resultsList : IncOut → List (EdgeData × PhantomNode × ℚ)
  | .ok rs => rs
  | .oob => []
  | .fuelOut => []

/-- The endpoint coordinates of a list of segments. -/
def endpoints (coords : List Coord) (objs : List EdgeData) : List Coord :=
  objs.foldr (fun e a => coordAt coords e.u :: coordAt coords e.v :: a) []

/-- The four bounds of `r` are each attained by an endpoint of `objs`
(tightness of a built MBR). -/
def attainsRect (coords : List Coord) (objs : List EdgeData) (r : RectangleInt2D) : Prop :=
  (∃ c ∈ endpoints coords objs, c.lat = r.min_lat) ∧
  (∃ c ∈ endpoints coords objs, c.lat = r.max_lat) ∧
  (∃ c ∈ endpoints coords objs, c.lon = r.min_lon) ∧
  (∃ c ∈ endpoints coords objs, c.lon = r.max_lon)

/-- Well-formedness of a built tree: nonempty nodes, every node's MBR
contains the endpoints of every segment below it (with children MBRs
nested in the parent's), and every node's MBR is tight (each bound
attained by an endpoint below). -/
inductive WF (coords : List Coord) : RTree → Prop
  | leafWF (mbr : RectangleInt2D) (objs : List EdgeData) :
      objs ≠ [] →
      (∀ c ∈ endpoints coords objs, inRect mbr c) →
      attainsRect coords objs mbr →
      WF coords (.leafN mbr objs)
  | innerWF (mbr : RectangleInt2D) (cs : List RTree) :
      cs ≠ [] →
      (∀ c ∈ cs, WF coords c) →
      (∀ c ∈ cs, rectSub c.mbrOf mbr) →
      attainsRect coords (segsOfList cs) mbr →
      WF coords (.innerN mbr cs)

/-! Concrete instances used by counterexamples and witnesses.  All query
points are at the origin; coordinates are small fixed-point values. -/

/-- The query point of the concrete scenarios. -/
def exOrigin : Coord := ⟨0, 0⟩

/-- Coordinate table of the pruning scenario: the lon-axis points 3,4,5,6
and 10 at latitude 0, plus the point at latitude 10 on the lat axis. -/
def ex1coords : List Coord := [⟨0, 3⟩, ⟨0, 4⟩, ⟨0, 5⟩, ⟨0, 6⟩, ⟨0, 10⟩, ⟨10, 0⟩]

/-- A tiny-component segment close to the origin (distance 9). -/
def ex1segA : EdgeData := ⟨0, 1, 1, 2, 10, 100, 100, 0, 0, 0, 0, true⟩

/-- A big-component segment at distance 25, the true nearest unfiltered one. -/
def ex1segB : EdgeData := ⟨2, 3, 3, 4, 11, 100, 100, 0, 0, 0, 0, false⟩

/-- A big-component diagonal segment at distance 50 whose MBR touches the
origin. -/
def ex1segC : EdgeData := ⟨4, 5, 5, 6, 12, 100, 100, 0, 0, 0, 0, false⟩

/-- The (spec-modelled) bulk-load key of the scenarios: sort by `name_id`. -/
def exKey : EdgeData → Int := fun e => (e.name_id : Int)

/-- The index the bulk load produces from the three segments with
`LEAF_NODE_SIZE = 1`, `BRANCHING_FACTOR = 2`. -/
def ex1tree : RTree :=
  .innerN ⟨0, 10, 0, 10⟩
    [.innerN ⟨3, 6, 0, 0⟩
       [.leafN ⟨3, 4, 0, 0⟩ [ex1segA], .leafN ⟨5, 6, 0, 0⟩ [ex1segB]],
     .innerN ⟨0, 10, 0, 10⟩ [.leafN ⟨0, 10, 0, 10⟩ [ex1segC]]]

/-- Coordinate table of the two-segment incremental scenario. -/
def ex5coords : List Coord := [⟨0, 3⟩, ⟨0, 4⟩, ⟨0, 5⟩, ⟨0, 6⟩]

/-- A tiny-component segment at distance 9. -/
def ex5segT : EdgeData := ⟨0, 1, 1, 2, 100, 100, 100, 0, 0, 0, 0, true⟩

/-- A big-component segment at distance 25. -/
def ex5segB : EdgeData := ⟨2, 3, 3, 4, 101, 100, 100, 0, 0, 0, 0, false⟩

/-- The index built from the two segments (`L = 1`, `B = 2`). -/
def ex5tree : RTree :=
  .innerN ⟨3, 6, 0, 0⟩ [.leafN ⟨3, 4, 0, 0⟩ [ex5segT], .leafN ⟨5, 6, 0, 0⟩ [ex5segB]]

/-- Coordinate table of the S2 endpoint scenario: `u = (0,0)`,
`v = (10_000_000, 0)`. -/
def ex6coords : List Coord := [⟨0, 0⟩, ⟨0, 10000000⟩]

/-- The single segment of S2: forward id 7, reverse id 8 (both not the
sentinel), forward weight 100, reverse weight 50. -/
def ex6seg : EdgeData := ⟨0, 1, 7, 8, 0, 100, 50, 0, 0, 0, 0, false⟩

/-- The one-leaf index built from the single segment. -/
def ex6tree : RTree := .leafN ⟨0, 10000000, 0, 0⟩ [ex6seg]

/-- The phantom node the S2 query returns: location `(0,0)`, forward
weight multiplied by the ratio 0 (so 0), reverse weight multiplied by 1. -/
def ex6phantom : PhantomNode := ⟨7, 8, 0, 0, 50, 0, 0, 0, ⟨0, 0⟩, 0⟩

/-- The stored tree-node array the build writes for the single segment:
one leaf-referencing node with `child_count = 0` and page index 0. -/
def ex6array : List TreeNodeRec := [⟨⟨0, 10000000, 0, 0⟩, 0, true, [0]⟩]

/-- The property of a stored leaf-referencing node: `child_count = 0` and
a single stored page index below `pages`. -/
def goodLeafNode (pages : Nat) (nd : TreeNodeRec) : Prop :=
  nd.child_is_on_disk = true →
    nd.child_count = 0 ∧ ∃ pidx, nd.children = [pidx] ∧ pidx < pages

/-! ### Claim theorems: the straightforward claims -/

/-- All nodes of a level are well-formed with segments drawn from `segs`. -/
def LevelOK (coords : List Coord) (segs : List EdgeData) (level : List RTree) : Prop :=
  ∀ t ∈ level, WF coords t ∧ ∀ e ∈ t.segsOf, e ∈ segs

/-- Queue-entry soundness: a segment entry carries its exact perpendicular
distance, a node entry a lower bound on its MBR MINDIST over a
well-formed subtree. -/
@[reducible] def entOK (coords : List Coord) (p : Coord) (d : ℚ) : QEntry → Prop
  | .segE e => d = segDistSq coords p e
  | .nodeE t => WF coords t ∧ d ≤ (t.mbrOf).GetMinDist p

/-- A segment is covered by a queue: it sits in a segment entry or below a
node entry. -/
@[reducible] def coveredBy (q : List (ℚ × QEntry)) (e : EdgeData) : Prop :=
  ∃ de ∈ q, de.2 = QEntry.segE e ∨ ∃ t, de.2 = QEntry.nodeE t ∧ e ∈ t.segsOf

/-- The result list of the `ex5` incremental run (`k = 1`). -/
def ex2results : List (EdgeData × PhantomNode × ℚ) :=
  match incrementalCore ex5coords ex5tree exOrigin 1 1000 with
  | .ok rs => rs
  | _ => []

/-- Queue-entry soundness for the non-incremental search. -/
@[reducible] def fentOK (coords : List Coord) (p : Coord) (T : RTree)
    (d : ℚ) (t : RTree) : Prop :=
  WF coords t ∧ d ≤ (t.mbrOf).GetMinDist p ∧ ∀ e ∈ t.segsOf, e ∈ T.segsOf

/-- A segment lies below some entry of the non-incremental queue. -/
@[reducible] def fCovered (q : List (ℚ × RTree)) (e : EdgeData) : Prop :=
  ∃ de ∈ q, e ∈ de.2.segsOf

/-- The running minimum is set and at most `x`. -/
@[reducible] def mdle (st : FindState) (x : ℚ) : Prop :=
  ∃ m, st.min_dist = some m ∧ m ≤ x

/-- The running MINMAXDIST bound is set and strictly below `x`. -/
@[reducible] def mmdLt (st : FindState) (x : ℚ) : Prop :=
  ∃ m, st.min_max_dist = some m ∧ m < x

/-- Coherence of the result slot with the running minimum. -/
@[reducible] def resOK (coords : List Coord) (p : Coord) (T : RTree)
    (st : FindState) : Prop :=
  (st.min_dist = none ∧ st.res = none) ∨
  ∃ m ph0 e0, st.min_dist = some m ∧ st.res = some (ph0, e0) ∧
    m = segDistSq coords p e0 ∧ e0 ∈ T.segsOf

/-- C8: for every input coordinate and every phantom-node location,
applying the rounding fix-up twice yields the same coordinate as applying
it once — `FixUpRoundingIssue` is idempotent. -/
theorem c8_fixup_idempotent (input : Coord) (ph : PhantomNode) :
    FixUpRoundingIssue input (FixUpRoundingIssue input ph) = FixUpRoundingIssue input ph := by
  simp only [FixUpRoundingIssue]
  split_ifs with h1 h2 h3 h4 h5 h6 <;> simp_all

/-- C9: the incremental k-nearest queries are independent of the zoom
level: both `IncrementalFindPhantomNodeForCoordinate` and its WithDistance
variant give identical outputs for any two zoom levels, because the
`zoom_level` parameter is never read. -/
theorem c9_zoom_independent (coords : List Coord) (T : RTree) (p : Coord)
    (k m z1 z2 : Nat) :
    IncrementalFindPhantomNodeForCoordinate coords T p z1 k m =
      IncrementalFindPhantomNodeForCoordinate coords T p z2 k m ∧
    IncrementalFindPhantomNodeForCoordinateWithDistance coords T p z1 k m =
      IncrementalFindPhantomNodeForCoordinateWithDistance coords T p z2 k m :=
  ⟨rfl, rfl⟩

/-- C4 counterexample: `Intersects` is not "non-empty closed overlap", and
it is not symmetric.  The two valid cross-shaped rectangles
`[0,10] x [4,6]` and `[4,6] x [0,10]` overlap (both contain `(5,5)`) yet
`Intersects` returns `false`; and a rectangle strictly containing another
intersects it one way but not the other. -/
theorem c4_counterexample :
    (⟨0, 10, 4, 6⟩ : RectangleInt2D).Valid ∧ (⟨4, 6, 0, 10⟩ : RectangleInt2D).Valid ∧
    RectangleInt2D.Intersects ⟨0, 10, 4, 6⟩ ⟨4, 6, 0, 10⟩ = false ∧
    RectangleInt2D.Contains ⟨0, 10, 4, 6⟩ ⟨5, 5⟩ = true ∧
    RectangleInt2D.Contains ⟨4, 6, 0, 10⟩ ⟨5, 5⟩ = true ∧
    (⟨0, 10, 0, 10⟩ : RectangleInt2D).Valid ∧ (⟨4, 6, 4, 6⟩ : RectangleInt2D).Valid ∧
    RectangleInt2D.Intersects ⟨0, 10, 0, 10⟩ ⟨4, 6, 4, 6⟩ = true ∧
    RectangleInt2D.Intersects ⟨4, 6, 4, 6⟩ ⟨0, 10, 0, 10⟩ = false := by
  decide

/-- C4 amended: `Intersects` only tests whether a corner of `other` lies in
`r`; this is sound — for a valid `other`, `Intersects` implies non-empty
closed overlap — but not complete and not symmetric. -/
theorem c4_amended (r other : RectangleInt2D) (hv : other.Valid)
    (hi : r.Intersects other = true) :
    ∃ c : Coord, r.Contains c = true ∧ other.Contains c = true := by
  obtain ⟨hlon, hlat⟩ := hv
  simp only [RectangleInt2D.Intersects, Bool.or_eq_true] at hi
  rcases hi with ((hi | hi) | hi) | hi
  · exact ⟨⟨other.max_lat, other.min_lon⟩, hi, by
      simp only [RectangleInt2D.Contains, Bool.and_eq_true, decide_eq_true_eq]; omega⟩
  · exact ⟨⟨other.max_lat, other.max_lon⟩, hi, by
      simp only [RectangleInt2D.Contains, Bool.and_eq_true, decide_eq_true_eq]; omega⟩
  · exact ⟨⟨other.min_lat, other.max_lon⟩, hi, by
      simp only [RectangleInt2D.Contains, Bool.and_eq_true, decide_eq_true_eq]; omega⟩
  · exact ⟨⟨other.min_lat, other.min_lon⟩, hi, by
      simp only [RectangleInt2D.Contains, Bool.and_eq_true, decide_eq_true_eq]; omega⟩

/-- C4 witness: the amended soundness statement at a concrete pair. -/
theorem c4_amended_witness :
    (⟨4, 6, 4, 6⟩ : RectangleInt2D).Valid ∧
    RectangleInt2D.Intersects ⟨0, 10, 0, 10⟩ ⟨4, 6, 4, 6⟩ = true ∧
    ∃ c : Coord, RectangleInt2D.Contains ⟨0, 10, 0, 10⟩ c = true ∧
      RectangleInt2D.Contains ⟨4, 6, 4, 6⟩ c = true :=
  ⟨by decide, by decide, c4_amended _ _ (by decide) (by decide)⟩

/-- C7: for the empty segment input the constructor does not raise any
EmptyTree error and does emit a leaf file: the build writes the leaf-file
header (element count 0, no pages) unconditionally, and then reaches the
broken-tree assertion / out-of-bounds root access (`none`), contrary to
the spec's demand to fail with EmptyTree and emit no file. -/
theorem c7_empty_build (L B : Nat) (key : EdgeData → Int) (coords : List Coord) :
    buildStaticRTree L B key [] coords = ((0, []), none) := by
  cases L <;> rfl

/-- C6 counterexample: for the S2 scenario (single segment `u=(0,0)`,
`v=(10^7, 0)`, query at `u`) the winning ratio is 0 and the code multiplies
the forward weight by it, zeroing it (100 becomes 0) — the claim's "leaves
the forward weight unchanged" is false. -/
theorem c6_counterexample :
    buildRTree 1 2 exKey [ex6seg] ex6coords = some ex6tree ∧
    FindPhantomNodeForCoordinate ex6coords ex6tree exOrigin 18 = some (ex6phantom, ex6seg) ∧
    ex6seg.forward_edge_based_node_id ≠ SPECIAL_NODEID ∧
    ex6seg.forward_weight = 100 ∧ ex6phantom.forward_weight = 0 ∧
    ¬ ex6phantom.forward_weight = ex6seg.forward_weight :=
  ⟨by with_unfolding_all rfl, by with_unfolding_all rfl, by decide, rfl, rfl, by decide⟩

/-- C6 amended: the S2 query yields foot point `(0,0)` and ratio 0; the
forward weight is multiplied by the ratio 0 (becoming 0) since the forward
id is not `SPECIAL_NODEID`, and the reverse weight is multiplied by
`1 - 0 = 1` (staying 50). -/
theorem c6_amended :
    buildRTree 1 2 exKey [ex6seg] ex6coords = some ex6tree ∧
    FindPhantomNodeForCoordinate ex6coords ex6tree exOrigin 18 = some (ex6phantom, ex6seg) ∧
    segFoot ex6coords exOrigin ex6seg = ⟨0, 0⟩ ∧
    ex6phantom.location = ⟨0, 0⟩ ∧
    min 1 (approxDistSq (coordAt ex6coords ex6seg.u) ex6phantom.location /
      approxDistSq (coordAt ex6coords ex6seg.u) (coordAt ex6coords ex6seg.v)) = (0 : ℚ) ∧
    ex6phantom.forward_weight = truncQ ((ex6seg.forward_weight : ℚ) * 0) ∧
    ex6phantom.reverse_weight = truncQ ((ex6seg.reverse_weight : ℚ) * (1 - 0)) :=
  ⟨by with_unfolding_all rfl, by with_unfolding_all rfl, by with_unfolding_all rfl, rfl,
   by with_unfolding_all rfl, by with_unfolding_all rfl, by with_unfolding_all rfl⟩

/-- C3 counterexample: the single-segment build stores one leaf-referencing
node whose `child_count` is 0, not 1 — the leaf-packing loop never
increments `child_count`. -/
theorem c3_counterexample :
    buildSearchTreeArray 1 2 exKey [ex6seg] ex6coords = some ex6array ∧
    ex6array = [⟨⟨0, 10000000, 0, 0⟩, 0, true, [0]⟩] ∧
    (⟨⟨0, 10000000, 0, 0⟩, 0, true, [0]⟩ : TreeNodeRec).child_is_on_disk = true ∧
    ¬ (⟨⟨0, 10000000, 0, 0⟩, 0, true, [0]⟩ : TreeNodeRec).child_count = 1 := by
  exact ⟨by decide, by decide, rfl, by decide⟩

/-- C1 counterexample: with the tiny-component filter active (zoom 10) the
MINMAXDIST pruning discards the node of the true nearest unfiltered
segment.  The built index holds a tiny segment at (squared) distance 9
whose box caps the MINMAXDIST bound at 9, a big segment at distance 25
whose box is then pruned (MINDIST 25 > 9), and a big diagonal segment at
distance 50 whose box touches the query point; the query returns the
distance-50 segment although the unfiltered distance-25 segment is
closer. -/
theorem c1_counterexample :
    buildRTree 1 2 exKey [ex1segA, ex1segB, ex1segC] ex1coords = some ex1tree ∧
    (FindPhantomNodeForCoordinate ex1coords ex1tree exOrigin 10).map (fun pe => pe.2) =
      some ex1segC ∧
    ex1segB ∈ ex1tree.segsOf ∧ ex1segB.is_in_tiny_cc = false ∧
    segDistSq ex1coords exOrigin ex1segC = 50 ∧
    segDistSq ex1coords exOrigin ex1segB = 25 ∧
    ¬ segDistSq ex1coords exOrigin ex1segC ≤ segDistSq ex1coords exOrigin ex1segB := by
  refine ⟨by with_unfolding_all rfl, by with_unfolding_all rfl, by with_unfolding_all decide,
    rfl, by with_unfolding_all rfl, by with_unfolding_all rfl, ?notle⟩
  case notle =>
    have h1 : segDistSq ex1coords exOrigin ex1segC = 50 := by with_unfolding_all rfl
    have h2 : segDistSq ex1coords exOrigin ex1segB = 25 := by with_unfolding_all rfl
    rw [h1, h2]
    norm_num

theorem incGo_count_inv (coords : List Coord) (p : Coord) (k m : Nat) :
    ∀ fuel (st : IncState) (q : List (ℚ × QEntry)),
    (st.results.filter (fun r => r.1.is_in_tiny_cc)).length = st.tinyCount →
    (st.results.filter (fun r => !r.1.is_in_tiny_cc)).length = st.bigCount →
    st.bigCount ≤ k → st.tinyCount ≤ k →
    ((incGo coords p k m fuel st q).resultsList.filter
        (fun r => r.1.is_in_tiny_cc)).length ≤ k ∧
    ((incGo coords p k m fuel st q).resultsList.filter
        (fun r => !r.1.is_in_tiny_cc)).length ≤ k := by
  intro fuel
  induction fuel with
  | zero => intro st q h1 h1b h2 h3; simp [incGo, IncOut.resultsList]
  | succ fuel ih =>
    intro st q h1 h1b h2 h3
    rw [incGo]
    rcases hpop : popMinQ q with _ | ⟨c, rest⟩
    · simp only [IncOut.resultsList]
      omega
    · rcases hmf : st.minFound[k-1]? with _ | curMin
      · simp [IncOut.resultsList]
      · simp only []
        split
        · exact ih st rest h1 h1b h2 h3
        · split
          · exact ih st _ h1 h1b h2 h3
          · exact ih st _ h1 h1b h2 h3
          · next e heq =>
            split
            · exact ih _ rest h1 h1b h2 h3
            · split
              · exact ih _ rest h1 h1b h2 h3
              · split
                · split
                  · next hnb hnt hacc htiny =>
                    refine ih _ _ ?a ?ab ?b ?c
                    case a =>
                      show (List.filter _ (st.results ++ [_])).length = st.tinyCount + 1
                      simp only [List.filter_append, List.length_append, h1,
                        List.filter_cons, htiny, if_true]
                      simp
                    case ab =>
                      show (List.filter _ (st.results ++ [_])).length = st.bigCount
                      simp only [List.filter_append, List.length_append, h1b,
                        List.filter_cons, htiny]
                      simp
                    case b => exact h2
                    case c =>
                      show st.tinyCount + 1 ≤ k
                      simp only [Bool.and_eq_true, decide_eq_true_eq] at hnt
                      have hne : ¬ k = st.tinyCount := fun hk => hnt ⟨hk, htiny⟩
                      omega
                  · next hnb hnt hacc htiny =>
                    split
                    · next hlen =>
                      refine ih _ _ ?d ?db ?e ?f
                      case d =>
                        show (List.filter _ (st.results ++ [_])).length = st.tinyCount
                        rw [Bool.not_eq_true] at htiny
                        simp only [List.filter_append, List.length_append, h1,
                          List.filter_cons, htiny]
                        simp
                      case db =>
                        show (List.filter _ (st.results ++ [_])).length = st.bigCount + 1
                        rw [Bool.not_eq_true] at htiny
                        simp only [List.filter_append, List.length_append, h1b,
                          List.filter_cons, htiny]
                        simp
                      case e =>
                        show st.bigCount + 1 ≤ k
                        rw [Bool.not_eq_true] at htiny
                        simp only [Bool.and_eq_true, decide_eq_true_eq, htiny,
                          Bool.not_false, and_true] at hnb
                        omega
                      case f => exact h3
                    · simp [IncOut.resultsList]
                · exact ih _ _ h1 h1b h2 h3

theorem filter_length_partition {α : Type} (pr : α → Bool) (l : List α) :
    l.length = (l.filter pr).length + (l.filter (fun a => !pr a)).length := by
  induction l with
  | nil => simp
  | cons a l ihl =>
    by_cases h : pr a <;> simp [List.filter_cons, h, ihl] <;> omega

/-- C5 amended: the incremental query appends at most `number_of_results`
phantom nodes from big components and at most `number_of_results` from
tiny components, hence at most `2 * number_of_results` in total (the
claim's single budget of `number_of_results` for both classes together is
wrong). -/
theorem c5_amended (coords : List Coord) (T : RTree) (p : Coord) (k m : Nat) :
    ((incrementalCore coords T p k m).resultsList.filter
        (fun r => r.1.is_in_tiny_cc)).length ≤ k ∧
    ((incrementalCore coords T p k m).resultsList.filter
        (fun r => !r.1.is_in_tiny_cc)).length ≤ k ∧
    (incrementalCore coords T p k m).resultsList.length ≤ 2 * k := by
  unfold incrementalCore
  have h := incGo_count_inv coords p k m (T.weight + 1)
    ⟨List.replicate k none, 0, 0, 0, []⟩ [((0 : ℚ), QEntry.nodeE T)] rfl rfl
    (Nat.zero_le _) (Nat.zero_le _)
  refine ⟨h.1, h.2, ?tot⟩
  case tot =>
    have hp := filter_length_partition (fun r => r.1.is_in_tiny_cc)
      (incGo coords p k m (T.weight + 1)
        ⟨List.replicate k none, 0, 0, 0, []⟩ [((0 : ℚ), QEntry.nodeE T)]).resultsList
    have h1 := h.1
    have h2 := h.2
    omega

/-- C5 counterexample: with `number_of_results = 1` the incremental query
appends two phantom nodes (one tiny-component, one big-component) — more
than `k`. -/
theorem c5_counterexample :
    buildRTree 1 2 exKey [ex5segT, ex5segB] ex5coords = some ex5tree ∧
    IncrementalFindPhantomNodeForCoordinate ex5coords ex5tree exOrigin 10 1 4 =
      some [⟨1, 2, 100, 0, 100, 0, 0, 0, ⟨0, 3⟩, 0⟩,
            ⟨3, 4, 101, 0, 100, 0, 0, 0, ⟨0, 5⟩, 0⟩] ∧
    ((IncrementalFindPhantomNodeForCoordinate ex5coords ex5tree exOrigin 10 1 4).getD
        []).length = 2 ∧
    ¬ ((IncrementalFindPhantomNodeForCoordinate ex5coords ex5tree exOrigin 10 1 4).getD
        []).length ≤ 1 := by
  refine ⟨by with_unfolding_all rfl, by with_unfolding_all rfl,
    by with_unfolding_all rfl, ?last⟩
  case last =>
    have h : ((IncrementalFindPhantomNodeForCoordinate ex5coords ex5tree exOrigin
        10 1 4).getD []).length = 2 := by with_unfolding_all rfl
    omega

theorem popMinQ_eq_none {α : Type} {q : List (ℚ × α)} :
    popMinQ q = none ↔ q = [] := by
  induction q with
  | nil => simp [popMinQ]
  | cons x xs ih =>
    simp only [popMinQ]
    rcases h : popMinQ xs with _ | ⟨m, rest⟩ <;> simp
    split <;> simp

theorem popMinQ_perm {α : Type} :
    ∀ {q : List (ℚ × α)} {c : ℚ × α} {rest : List (ℚ × α)},
    popMinQ q = some (c, rest) → q.Perm (c :: rest) := by
  intro q
  induction q with
  | nil => intro c rest h; simp [popMinQ] at h
  | cons x xs ih =>
    intro c rest h
    rw [popMinQ] at h
    rcases h2 : popMinQ xs with _ | ⟨m, r2⟩ <;> simp only [h2] at h
    · have hxs : xs = [] := popMinQ_eq_none.mp h2
      simp only [Option.some.injEq, Prod.mk.injEq] at h
      obtain ⟨h3, h4⟩ := h
      subst hxs h3 h4
      exact List.Perm.refl _
    · split at h <;> simp only [Option.some.injEq, Prod.mk.injEq] at h <;>
        obtain ⟨h3, h4⟩ := h
      · subst h3 h4
        exact List.Perm.refl _
      · subst h3 h4
        exact ((ih h2).cons x).trans (List.Perm.swap _ _ _)

theorem popMinQ_min {α : Type} :
    ∀ {q : List (ℚ × α)} {c : ℚ × α} {rest : List (ℚ × α)},
    popMinQ q = some (c, rest) → ∀ y ∈ q, c.1 ≤ y.1 := by
  intro q
  induction q with
  | nil => intro c rest h; simp [popMinQ] at h
  | cons x xs ih =>
    intro c rest h y hy
    rw [popMinQ] at h
    rcases h2 : popMinQ xs with _ | ⟨m, r2⟩ <;> simp only [h2] at h
    · have hxs : xs = [] := popMinQ_eq_none.mp h2
      simp only [Option.some.injEq, Prod.mk.injEq] at h
      subst hxs
      simp only [List.mem_singleton] at hy
      subst hy
      exact le_of_eq (congrArg Prod.fst h.1.symm)
    · split at h <;> rename_i hle <;>
        simp only [Option.some.injEq, Prod.mk.injEq] at h <;>
        obtain ⟨h3, h4⟩ := h <;> subst h3
      · rcases List.mem_cons.mp hy with h5 | h5
        · subst h5; exact le_refl _
        · exact le_trans hle (ih h2 y h5)
      · rcases List.mem_cons.mp hy with h5 | h5
        · subst h5
          exact le_of_not_le hle
        · exact ih h2 y h5

theorem entrySum_append {α : Type} (w : α → Nat) (a b : List (ℚ × α)) :
    entrySum w (a ++ b) = entrySum w a + entrySum w b := by
  simp [entrySum]

theorem entrySum_perm {α : Type} (w : α → Nat) {a b : List (ℚ × α)}
    (h : a.Perm b) : entrySum w a = entrySum w b :=
  List.Perm.sum_eq (h.map (fun en => w en.2))

theorem popMinQ_entrySum {α : Type} (w : α → Nat) {q : List (ℚ × α)}
    {c : ℚ × α} {rest : List (ℚ × α)} (h : popMinQ q = some (c, rest)) :
    entrySum w q = w c.2 + entrySum w rest := by
  have hp := entrySum_perm w (popMinQ_perm h)
  simpa [entrySum] using hp

theorem RTree.weight_pos (t : RTree) : 1 ≤ t.weight := by
  cases t <;> simp [RTree.weight] <;> omega

theorem QEntry.weightPos (en : QEntry) : 1 ≤ en.weight := by
  cases en with
  | nodeE t => exact t.weight_pos
  | segE e => exact le_refl 1

theorem entrySum_cons {α : Type} (w : α → Nat) (x : ℚ × α) (l : List (ℚ × α)) :
    entrySum w (x :: l) = w x.2 + entrySum w l := by
  simp [entrySum]

theorem leafPushes_entrySum (coords : List Coord) (p : Coord) (cm : Option ℚ) :
    ∀ objs : List EdgeData,
    entrySum QEntry.weight (leafPushes coords p cm objs) ≤ objs.length := by
  intro objs
  induction objs with
  | nil => simp [leafPushes, entrySum]
  | cons e objs ih =>
    rw [leafPushes]
    split
    · rw [entrySum_cons]
      simp only [QEntry.weight, List.length_cons]
      omega
    · simp only [List.length_cons]
      exact le_trans ih (by omega)

theorem childPushes_entrySum (p : Coord) (cm : Option ℚ) :
    ∀ cs : List RTree,
    entrySum QEntry.weight (childPushes p cm cs) ≤ weightList cs := by
  intro cs
  induction cs with
  | nil => simp [childPushes, entrySum, weightList]
  | cons c cs ih =>
    rw [childPushes, weightList]
    split
    · rw [entrySum_cons]
      simp only [QEntry.weight]
      omega
    · exact le_trans ih (by omega)

theorem incGo_no_failure (coords : List Coord) (p : Coord) (k m : Nat) (hk : 1 ≤ k) :
    ∀ fuel (st : IncState) (q : List (ℚ × QEntry)),
    st.minFound.length = k →
    st.bigCount ≤ k →
    (st.bigCount = k → q = []) →
    entrySum QEntry.weight q < fuel →
    ∃ rs, incGo coords p k m fuel st q = .ok rs := by
  intro fuel
  induction fuel with
  | zero =>
    intro st q hlen hbig hfl hw
    exact absurd hw (by omega)
  | succ fuel ih =>
    intro st q hlen hbig hfl hw
    rw [incGo]
    rcases hpop : popMinQ q with _ | ⟨c, rest⟩
    · exact ⟨st.results, rfl⟩
    · have hqne : q ≠ [] := by
        intro h0
        rw [h0] at hpop
        simp [popMinQ] at hpop
      have hne : st.bigCount ≠ k := fun h0 => hqne (hfl h0)
      have hsum := popMinQ_entrySum QEntry.weight hpop
      have hwc := QEntry.weightPos c.2
      obtain ⟨cm, hcm⟩ : ∃ cm, st.minFound[k-1]? = some cm :=
        ⟨_, List.getElem?_eq_getElem (by omega)⟩
      simp only [hcm]
      split
      · exact ih st rest hlen hbig (fun h0 => absurd h0 hne) (by omega)
      · split
        · next mbr objs heq =>
          have hcw : QEntry.weight c.2 = objs.length + 1 := by
            rw [heq]; simp [QEntry.weight, RTree.weight]
          have hpush := leafPushes_entrySum coords p cm objs
          split
          · exact ih st [] hlen hbig (fun _ => rfl) (by simp [entrySum]; omega)
          · refine ih st _ hlen hbig (fun h0 => absurd h0 hne) ?wle
            case wle =>
              rw [entrySum_append]
              omega
        · next mbr cs heq =>
          have hcw : QEntry.weight c.2 = weightList cs + 1 := by
            rw [heq]; simp [QEntry.weight, RTree.weight]
          have hpush := childPushes_entrySum p cm cs
          split
          · exact ih st [] hlen hbig (fun _ => rfl) (by simp [entrySum]; omega)
          · refine ih st _ hlen hbig (fun h0 => absurd h0 hne) ?wle2
            case wle2 =>
              rw [entrySum_append]
              omega
        · next e heq =>
          have hcw : QEntry.weight c.2 = 1 := by rw [heq]; rfl
          split
          · exact ih _ rest hlen hbig (fun h0 => absurd h0 hne) (by omega)
          · split
            · exact ih _ rest hlen hbig (fun h0 => absurd h0 hne) (by omega)
            · split
              · split
                · -- tiny acceptance
                  split
                  · next hcond =>
                    exact ih _ [] (by simpa using hlen) hbig (fun _ => rfl)
                      (by simp [entrySum]; omega)
                  · next hcond =>
                    refine ih _ rest (by simpa using hlen) hbig ?fl3 (by omega)
                    case fl3 =>
                      intro h0
                      exact absurd h0 hne
                · -- big acceptance
                  split
                  · next hok =>
                    split
                    · next hcond =>
                      exact ih _ [] (by simpa using hlen) (by simp only []; omega)
                        (fun _ => rfl) (by simp [entrySum]; omega)
                    · next hcond =>
                      refine ih _ rest (by simpa using hlen) (by simp only []; omega)
                        ?fl4 (by omega)
                      case fl4 =>
                        intro h0
                        simp only [Bool.or_eq_true, decide_eq_true_eq] at hcond
                        push_neg at hcond
                        exact absurd h0.symm hcond.1
                  · next hok =>
                    exact absurd (by omega : st.bigCount < st.minFound.length) hok
              · split
                · exact ih _ [] hlen hbig (fun _ => rfl) (by simp [entrySum]; omega)
                · next hcond =>
                  refine ih _ rest hlen hbig ?fl5 (by omega)
                  case fl5 =>
                    intro h0
                    exact absurd h0 hne

/-- C10: for `number_of_results ≥ 1` every access of `min_found_distances`
is in bounds (the read at `number_of_results - 1` and, on each
big-component acceptance, the guarded write at the big counter), so the
incremental query never fails; with `number_of_results = 0` the very first
read of `min_found_distances[number_of_results - 1]` is out of bounds, so
`number_of_results ≥ 1` is a genuine precondition. -/
theorem c10_minfound_access_safe (coords : List Coord) (T : RTree) (p : Coord)
    (zoom k m : Nat) :
    (1 ≤ k → (IncrementalFindPhantomNodeForCoordinate coords T p zoom k m).isSome = true) ∧
    IncrementalFindPhantomNodeForCoordinate coords T p zoom 0 m = none := by
  constructor
  · intro hk
    obtain ⟨rs, h⟩ := incGo_no_failure coords p k m hk (T.weight + 1)
      ⟨List.replicate k none, 0, 0, 0, []⟩ [((0 : ℚ), QEntry.nodeE T)]
      (by simp) (Nat.zero_le _) (fun h0 => absurd (show (0 : Nat) = k from h0) (by omega))
      (by simp only [entrySum, List.map_cons, List.map_nil, List.sum_cons,
            List.sum_nil, QEntry.weight]; omega)
    simp only [IncrementalFindPhantomNodeForCoordinate, incrementalCore, h]
    rfl
  · have h : incrementalCore coords T p 0 m = .oob := by
      rw [incrementalCore, incGo]
      simp [popMinQ]
    simp [IncrementalFindPhantomNodeForCoordinate, h]

/-- C10 witness: the safety statement at the concrete two-segment index
with `number_of_results = 2`. -/
theorem c10_witness :
    1 ≤ 2 ∧
    (IncrementalFindPhantomNodeForCoordinate ex5coords ex5tree exOrigin 10 2 4).isSome
      = true ∧
    IncrementalFindPhantomNodeForCoordinate ex5coords ex5tree exOrigin 10 0 4 = none :=
  ⟨by decide,
   (c10_minfound_access_safe ex5coords ex5tree exOrigin 10 2 4).1 (by decide),
   (c10_minfound_access_safe ex5coords ex5tree exOrigin 10 0 4).2⟩

theorem leafTreeNodes_good (coords : List Coord) (L : Nat) (sorted : List EdgeData) :
    ∀ nd ∈ leafTreeNodes coords L sorted,
      goodLeafNode (chunkList L sorted).length nd := by
  intro nd hnd
  simp only [leafTreeNodes, List.mem_map] at hnd
  obtain ⟨ci, hci, rfl⟩ := hnd
  intro _
  refine ⟨rfl, ci.1, rfl, ?lt⟩
  case lt =>
    have := List.fst_lt_of_mem_enum hci
    exact this

theorem packParentsGo_fst_mem :
    ∀ (gs : List (List TreeNodeRec)) (acc : List TreeNodeRec),
    ∀ nd ∈ (packParentsGo acc gs).1, nd ∈ acc ∨ ∃ g ∈ gs, nd ∈ g := by
  intro gs
  induction gs with
  | nil => intro acc nd h; exact Or.inl (by simpa [packParentsGo] using h)
  | cons g gs ih =>
    intro acc nd h
    rw [packParentsGo] at h
    rcases ih (acc ++ g) nd h with h2 | ⟨g2, hg2, hnd⟩
    · rcases List.mem_append.mp h2 with h3 | h3
      · exact Or.inl h3
      · exact Or.inr ⟨g, List.mem_cons_self g gs, h3⟩
    · exact Or.inr ⟨g2, List.mem_cons_of_mem g hg2, hnd⟩

theorem packParentsGo_snd_not_disk :
    ∀ (gs : List (List TreeNodeRec)) (acc : List TreeNodeRec),
    ∀ nd ∈ (packParentsGo acc gs).2, nd.child_is_on_disk = false := by
  intro gs
  induction gs with
  | nil => intro acc nd h; simp [packParentsGo] at h
  | cons g gs ih =>
    intro acc nd h
    rw [packParentsGo] at h
    rcases List.mem_cons.mp h with h2 | h2
    · subst h2; rfl
    · exact ih (acc ++ g) nd h2

theorem chunkListGo_subset {α : Type} (n : Nat) :
    ∀ (fuel : Nat) (l : List α) (g : List α), g ∈ chunkListGo n fuel l →
    ∀ x ∈ g, x ∈ l := by
  intro fuel
  induction fuel with
  | zero => intro l g h; simp [chunkListGo] at h
  | succ fuel ih =>
    intro l g h x hx
    cases l with
    | nil => simp [chunkListGo] at h
    | cons y ys =>
      rw [chunkListGo] at h
      rcases List.mem_cons.mp h with h2 | h2
      · subst h2
        exact List.take_subset n _ hx
      · exact List.drop_subset n _ (ih _ g h2 x hx)

theorem chunkList_subset {α : Type} (n : Nat) (l : List α) (g : List α)
    (h : g ∈ chunkList n l) : ∀ x ∈ g, x ∈ l := by
  cases n with
  | zero => simp [chunkList] at h
  | succ m => exact chunkListGo_subset _ _ _ _ h

theorem packParents_good (pages B : Nat) (acc level : List TreeNodeRec)
    (hacc : ∀ nd ∈ acc, goodLeafNode pages nd)
    (hlev : ∀ nd ∈ level, goodLeafNode pages nd) :
    (∀ nd ∈ (packParents B acc level).1, goodLeafNode pages nd) ∧
    (∀ nd ∈ (packParents B acc level).2, goodLeafNode pages nd) := by
  constructor
  · intro nd h
    rcases packParentsGo_fst_mem _ _ nd h with h2 | ⟨g, hg, hnd⟩
    · exact hacc nd h2
    · exact hlev nd (chunkList_subset _ _ _ hg nd hnd)
  · intro nd h
    have := packParentsGo_snd_not_disk _ _ nd h
    intro hdisk
    rw [this] at hdisk
    exact absurd hdisk (by simp)

theorem packAllLevels_good (pages B : Nat) :
    ∀ (fuel : Nat) (acc level : List TreeNodeRec)
    (hacc : ∀ nd ∈ acc, goodLeafNode pages nd)
    (hlev : ∀ nd ∈ level, goodLeafNode pages nd)
    (acc2 : List TreeNodeRec) (root : TreeNodeRec),
    packAllLevels B fuel acc level = some (acc2, root) →
    (∀ nd ∈ acc2, goodLeafNode pages nd) ∧ goodLeafNode pages root := by
  intro fuel
  induction fuel with
  | zero =>
    intro acc level hacc hlev acc2 root h
    match level, h with
    | [t], h =>
      simp only [packAllLevels, Option.some.injEq, Prod.mk.injEq] at h
      obtain ⟨rfl, rfl⟩ := h
      exact ⟨hacc, hlev t (by simp)⟩
  | succ fuel ih =>
    intro acc level hacc hlev acc2 root h
    match level, h with
    | [t], h =>
      simp only [packAllLevels, Option.some.injEq, Prod.mk.injEq] at h
      obtain ⟨rfl, rfl⟩ := h
      exact ⟨hacc, hlev t (by simp)⟩
    | t1 :: t2 :: ts, h =>
      rw [packAllLevels] at h
      have hg := packParents_good pages B acc (t1 :: t2 :: ts) hacc hlev
      exact ih _ _ hg.1 hg.2 acc2 root h

theorem renumberNode_of_count_zero (n : Nat) (nd : TreeNodeRec)
    (h : nd.child_count = 0) : renumberNode n nd = nd := by
  rcases nd with ⟨mbr, cnt, disk, ch⟩
  simp only at h
  subst h
  have hmap : (ch.enum).map (fun jc => if jc.1 < (0 : Nat) then n - jc.2 - 1 else jc.2) = ch := by
    have h2 : ((fun jc => if jc.1 < (0 : Nat) then n - jc.2 - 1 else jc.2) :
        Nat × Nat → Nat) = Prod.snd := by
      funext jc
      simp
    rw [h2]
    exact List.enum_map_snd ch
  simp only [renumberNode, hmap]

/-- C3 amended: every stored tree node with `child_is_on_disk = true` has
`child_count = 0` (not 1: the leaf-packing loop never increments it); its
`children[0]` is a leaf-page index in `[0, page_count)`, and — exactly
because `child_count = 0` bounds the renumbering loop — the
reverse-and-renumber step leaves the node unchanged. -/
theorem c3_amended (L B : Nat) (key : EdgeData → Int) (segs : List EdgeData)
    (coords : List Coord) (arr : List TreeNodeRec)
    (hb : buildSearchTreeArray L B key segs coords = some arr) :
    ∀ nd ∈ arr, nd.child_is_on_disk = true →
      nd.child_count = 0 ∧
      (∃ pidx, nd.children = [pidx] ∧ pidx < (leafPages L key segs).length) ∧
      renumberNode arr.length nd = nd := by
  rw [buildSearchTreeArray] at hb
  rcases hp : packAllLevels B (segs.length + 1) []
      (leafTreeNodes coords L (sortByKey key segs)) with _ | ⟨acc, root⟩
  · rw [hp] at hb; exact absurd hb (by simp)
  · rw [hp] at hb
    simp only [Option.some.injEq] at hb
    have hgood := packAllLevels_good (chunkList L (sortByKey key segs)).length B
      (segs.length + 1) [] _ (by intro nd h; simp at h)
      (leafTreeNodes_good coords L (sortByKey key segs)) acc root hp
    intro nd hnd hdisk
    rw [← hb] at hnd
    simp only [List.mem_map] at hnd
    obtain ⟨nd0, hnd0, rfl⟩ := hnd
    have hnd0m : nd0 ∈ acc ++ [root] := (List.mem_reverse).mp hnd0
    have hP : goodLeafNode (chunkList L (sortByKey key segs)).length nd0 := by
      rcases List.mem_append.mp hnd0m with h2 | h2
      · exact hgood.1 nd0 h2
      · rw [List.mem_singleton.mp h2]; exact hgood.2
    have hdisk0 : nd0.child_is_on_disk = true := by
      have : (renumberNode ((acc ++ [root]).reverse.length) nd0).child_is_on_disk
          = nd0.child_is_on_disk := rfl
      rw [← this]; exact hdisk
    obtain ⟨hcnt, pidx, hch, hlt⟩ := hP hdisk0
    have hren : renumberNode ((acc ++ [root]).reverse.length) nd0 = nd0 :=
      renumberNode_of_count_zero _ _ hcnt
    rw [hren]
    refine ⟨hcnt, ⟨pidx, hch, ?plt⟩, renumberNode_of_count_zero _ _ hcnt⟩
    case plt =>
      have : (leafPages L key segs).length = (chunkList L (sortByKey key segs)).length := by
        simp [leafPages]
      rw [this]
      exact hlt

/-- C3 witness: the amended statement at the concrete single-segment build. -/
theorem c3_amended_witness :
    buildSearchTreeArray 1 2 exKey [ex6seg] ex6coords = some ex6array ∧
    ∀ nd ∈ ex6array, nd.child_is_on_disk = true →
      nd.child_count = 0 ∧
      (∃ pidx, nd.children = [pidx] ∧ pidx < (leafPages 1 exKey [ex6seg]).length) ∧
      renumberNode ex6array.length nd = nd :=
  ⟨by decide, c3_amended 1 2 exKey [ex6seg] ex6coords ex6array (by decide)⟩

theorem distSqQ_nonneg (a b : QPoint) : 0 ≤ distSqQ a b := by
  unfold distSqQ
  positivity

theorem approxDistSq_nonneg (a b : Coord) : 0 ≤ approxDistSq a b :=
  distSqQ_nonneg _ _

theorem GetMinDist_nonneg (r : RectangleInt2D) (p : Coord) : 0 ≤ r.GetMinDist p := by
  unfold RectangleInt2D.GetMinDist
  split
  · exact le_refl 0
  · dsimp only
    split_ifs <;> exact approxDistSq_nonneg _ _

theorem contains_iff_inRect (r : RectangleInt2D) (c : Coord) :
    r.Contains c = true ↔ inRect r c := by
  simp [RectangleInt2D.Contains, inRect, and_assoc]

theorem valid_of_inRect {r : RectangleInt2D} {c : Coord} (h : inRect r c) : r.Valid := by
  obtain ⟨h1, h2, h3, h4⟩ := h
  exact ⟨le_trans h3 h4, le_trans h1 h2⟩

theorem clampPt_inRect (r : RectangleInt2D) (p : Coord) (hv : r.Valid) :
    inRect r (r.clampPt p) := by
  obtain ⟨h1, h2⟩ := hv
  refine ⟨le_max_left _ _, ?a, le_max_left _ _, ?b⟩
  case a => simp only [RectangleInt2D.clampPt]; omega
  case b => simp only [RectangleInt2D.clampPt]; omega

theorem GetMinDist_eq_clamp (r : RectangleInt2D) (p : Coord) (hv : r.Valid) :
    r.GetMinDist p = approxDistSq p (r.clampPt p) := by
  obtain ⟨hlon, hlat⟩ := hv
  obtain ⟨plat, plon⟩ := p
  unfold RectangleInt2D.GetMinDist RectangleInt2D.clampPt
  split
  · next hc =>
    rw [contains_iff_inRect] at hc
    obtain ⟨h1, h2, h3, h4⟩ := hc
    dsimp only at h1 h2 h3 h4
    have he : (⟨max r.min_lat (min plat r.max_lat), max r.min_lon (min plon r.max_lon)⟩ :
        Coord) = ⟨plat, plon⟩ := by
      simp only [Coord.mk.injEq]
      constructor <;> omega
    rw [he]
    norm_num [approxDistSq, distSqQ, Coord.toQ]
  · next hc =>
    rw [contains_iff_inRect] at hc
    unfold inRect at hc
    push_neg at hc
    dsimp only at hc
    dsimp only
    split_ifs with h1 h2 h3 h4 h5 h6 h7 <;>
      simp only [Bool.and_eq_true, decide_eq_true_eq, Bool.not_eq_true] at * <;>
      congr 1 <;> simp only [Coord.mk.injEq] <;> constructor <;> omega

theorem clamp1D_sq_le (a lo hi x : ℚ) (hx1 : lo ≤ x) (hx2 : x ≤ hi) :
    (a - max lo (min a hi)) ^ 2 ≤ (a - x) ^ 2 := by
  rcases le_total a lo with h1 | h1
  · have hmin : min a hi = a := min_eq_left (le_trans h1 (le_trans hx1 hx2))
    rw [hmin, max_eq_left h1]
    nlinarith
  · rcases le_total a hi with h2 | h2
    · rw [min_eq_left h2, max_eq_right h1]
      nlinarith [sq_nonneg (a - x)]
    · rw [min_eq_right h2, max_eq_right (le_trans hx1 hx2)]
      nlinarith

theorem inRectQ_of_inRect {r : RectangleInt2D} {c : Coord} (h : inRect r c) :
    inRectQ r c.toQ := by
  obtain ⟨h1, h2, h3, h4⟩ := h
  unfold inRectQ Coord.toQ
  dsimp only
  exact ⟨by exact_mod_cast h1, by exact_mod_cast h2, by exact_mod_cast h3,
    by exact_mod_cast h4⟩

theorem GetMinDist_le_distSqQ (r : RectangleInt2D) (p : Coord) (x : QPoint)
    (hv : r.Valid) (hx : inRectQ r x) :
    r.GetMinDist p ≤ distSqQ p.toQ x := by
  rw [GetMinDist_eq_clamp r p hv]
  obtain ⟨hx1, hx2, hx3, hx4⟩ := hx
  unfold approxDistSq distSqQ RectangleInt2D.clampPt Coord.toQ
  push_cast
  have hlat := clamp1D_sq_le (p.lat : ℚ) (r.min_lat : ℚ) (r.max_lat : ℚ) x.lat hx1 hx2
  have hlon := clamp1D_sq_le (p.lon : ℚ) (r.min_lon : ℚ) (r.max_lon : ℚ) x.lon hx3 hx4
  push_cast at hlat hlon
  nlinarith [hlat, hlon]

theorem GetMinDist_mono (r1 r2 : RectangleInt2D) (p : Coord)
    (hv2 : r2.Valid) (hsub : rectSub r2 r1) :
    r1.GetMinDist p ≤ r2.GetMinDist p := by
  have hv1 : r1.Valid := by
    obtain ⟨a1, a2, a3, a4⟩ := hsub
    obtain ⟨b1, b2⟩ := hv2
    exact ⟨by omega, by omega⟩
  have hc2 : inRect r2 (r2.clampPt p) := clampPt_inRect r2 p hv2
  have hc1 : inRectQ r1 (r2.clampPt p).toQ := by
    obtain ⟨a1, a2, a3, a4⟩ := hsub
    obtain ⟨b1, b2, b3, b4⟩ := hc2
    refine ⟨?q1, ?q2, ?q3, ?q4⟩ <;> unfold Coord.toQ <;> dsimp only <;> exact_mod_cast by omega
  rw [GetMinDist_eq_clamp r2 p hv2]
  exact GetMinDist_le_distSqQ r1 p _ hv1 hc1

theorem perpParam_mem (u v p : Coord) :
    0 ≤ perpParam u v p ∧ perpParam u v p ≤ 1 := by
  unfold perpParam
  split
  · exact ⟨le_refl 0, zero_le_one⟩
  · constructor
    · exact le_max_left 0 _
    · exact max_le zero_le_one (min_le_left 1 _)

theorem convex1D_mem (lo hi a b t : ℚ) (ha1 : lo ≤ a) (ha2 : a ≤ hi)
    (hb1 : lo ≤ b) (hb2 : b ≤ hi) (ht1 : 0 ≤ t) (ht2 : t ≤ 1) :
    lo ≤ a + t * (b - a) ∧ a + t * (b - a) ≤ hi := by
  constructor <;> nlinarith

theorem perpFootQ_inRectQ (r : RectangleInt2D) (u v p : Coord)
    (hu : inRect r u) (hv : inRect r v) :
    inRectQ r (perpFootQ u v p) := by
  obtain ⟨hu1, hu2, hu3, hu4⟩ := hu
  obtain ⟨hv1, hv2, hv3, hv4⟩ := hv
  obtain ⟨ht1, ht2⟩ := perpParam_mem u v p
  unfold perpFootQ
  have hlat := convex1D_mem (r.min_lat : ℚ) (r.max_lat : ℚ) (u.lat : ℚ) (v.lat : ℚ)
    (perpParam u v p) (by exact_mod_cast hu1) (by exact_mod_cast hu2)
    (by exact_mod_cast hv1) (by exact_mod_cast hv2) ht1 ht2
  have hlon := convex1D_mem (r.min_lon : ℚ) (r.max_lon : ℚ) (u.lon : ℚ) (v.lon : ℚ)
    (perpParam u v p) (by exact_mod_cast hu3) (by exact_mod_cast hu4)
    (by exact_mod_cast hv3) (by exact_mod_cast hv4) ht1 ht2
  refine ⟨?a, ?b, ?c, ?d⟩ <;> dsimp only <;> push_cast
  · exact_mod_cast hlat.1
  · exact_mod_cast hlat.2
  · exact_mod_cast hlon.1
  · exact_mod_cast hlon.2

theorem GetMinDist_le_perpDistSq (r : RectangleInt2D) (u v p : Coord)
    (hu : inRect r u) (hv : inRect r v) :
    r.GetMinDist p ≤ perpDistSq u v p := by
  have hval : r.Valid := valid_of_inRect hu
  exact GetMinDist_le_distSqQ r p _ hval (perpFootQ_inRectQ r u v p hu hv)

theorem clamp01_key (t0 s : ℚ) (hs : s = 0 ∨ s = 1) :
    max 0 (min 1 t0) * max 0 (min 1 t0) - 2 * t0 * max 0 (min 1 t0) ≤
      s * s - 2 * t0 * s := by
  rcases le_total t0 0 with h | h
  · have h1 : min 1 t0 = t0 := min_eq_right (le_trans h zero_le_one)
    have h2 : max 0 (min 1 t0) = 0 := by rw [h1]; exact max_eq_left h
    rw [h2]
    rcases hs with rfl | rfl <;> nlinarith
  · rcases le_total t0 1 with h2 | h2
    · have h3 : max 0 (min 1 t0) = t0 := by rw [min_eq_right h2]; exact max_eq_right h
      rw [h3]
      rcases hs with rfl | rfl <;> nlinarith [sq_nonneg t0, sq_nonneg (1 - t0)]
    · have h3 : max 0 (min 1 t0) = 1 := by rw [min_eq_left h2]; exact max_eq_right zero_le_one
      rw [h3]
      rcases hs with rfl | rfl <;> nlinarith

theorem quad_foot_min (A Bq dx dy s : ℚ) (hlen : 0 < dx ^ 2 + dy ^ 2)
    (hs : s = 0 ∨ s = 1) :
    (A - max 0 (min 1 ((Bq * dx + A * dy) / (dx ^ 2 + dy ^ 2))) * dy) ^ 2 +
      (Bq - max 0 (min 1 ((Bq * dx + A * dy) / (dx ^ 2 + dy ^ 2))) * dx) ^ 2 ≤
    (A - s * dy) ^ 2 + (Bq - s * dx) ^ 2 := by
  have hne : dx ^ 2 + dy ^ 2 ≠ 0 := ne_of_gt hlen
  set T : ℚ := (Bq * dx + A * dy) / (dx ^ 2 + dy ^ 2) with hT
  have hdot : Bq * dx + A * dy = T * (dx ^ 2 + dy ^ 2) := by
    rw [hT]
    field_simp
  set M : ℚ := max 0 (min 1 T) with hM
  have key := clamp01_key T s hs
  rw [← hM] at key
  have key2 := mul_le_mul_of_nonneg_left key (le_of_lt hlen)
  have hdot2 : (M - s) * (Bq * dx + A * dy) = (M - s) * (T * (dx ^ 2 + dy ^ 2)) := by
    rw [hdot]
  nlinarith [key2, hdot2]

theorem perpDistSq_le_endpoints (u v p : Coord) :
    perpDistSq u v p ≤ approxDistSq p u ∧ perpDistSq u v p ≤ approxDistSq p v := by
  by_cases hud : u = v
  · subst hud
    have he : perpDistSq u u p = approxDistSq p u := by
      unfold perpDistSq perpFootQ perpParam approxDistSq distSqQ Coord.toQ
      simp
    rw [he]
    exact ⟨le_refl _, le_refl _⟩
  · have hlen : (0 : ℚ) < ((v.lon - u.lon : Int) : ℚ) ^ 2 + ((v.lat - u.lat : Int) : ℚ) ^ 2 := by
      have hne : ((v.lon - u.lon : Int) : ℚ) ≠ 0 ∨ ((v.lat - u.lat : Int) : ℚ) ≠ 0 := by
        by_contra hcon
        push_neg at hcon
        obtain ⟨h1, h2⟩ := hcon
        have h3 : v.lon - u.lon = 0 := by exact_mod_cast h1
        have h4 : v.lat - u.lat = 0 := by exact_mod_cast h2
        apply hud
        rcases u with ⟨ulat, ulon⟩
        rcases v with ⟨vlat, vlon⟩
        simp only [Coord.mk.injEq]
        simp only at h3 h4
        omega
      rcases hne with h | h
      · have : 0 < ((v.lon - u.lon : Int) : ℚ) ^ 2 := by positivity
        nlinarith [sq_nonneg ((v.lat - u.lat : Int) : ℚ)]
      · have : 0 < ((v.lat - u.lat : Int) : ℚ) ^ 2 := by positivity
        nlinarith [sq_nonneg ((v.lon - u.lon : Int) : ℚ)]
    constructor
    · have h := quad_foot_min ((p.lat : ℚ) - (u.lat : ℚ)) ((p.lon : ℚ) - (u.lon : ℚ))
        ((v.lon - u.lon : Int) : ℚ) ((v.lat - u.lat : Int) : ℚ) 0 hlen (Or.inl rfl)
      unfold perpDistSq perpFootQ perpParam approxDistSq distSqQ Coord.toQ
      rw [if_neg hud]
      push_cast at h ⊢
      nlinarith [h]
    · have h := quad_foot_min ((p.lat : ℚ) - (u.lat : ℚ)) ((p.lon : ℚ) - (u.lon : ℚ))
        ((v.lon - u.lon : Int) : ℚ) ((v.lat - u.lat : Int) : ℚ) 1 hlen (Or.inr rfl)
      unfold perpDistSq perpFootQ perpParam approxDistSq distSqQ Coord.toQ
      rw [if_neg hud]
      push_cast at h ⊢
      nlinarith [h]

theorem sq_between_le_max (a lo hi w : ℚ) (h1 : lo ≤ w) (h2 : w ≤ hi) :
    (a - w) ^ 2 ≤ max ((a - lo) ^ 2) ((a - hi) ^ 2) := by
  rcases le_total w a with h | h
  · exact le_max_of_le_left (by nlinarith)
  · exact le_max_of_le_right (by nlinarith)

theorem endpoints_append (coords : List Coord) (a b : List EdgeData) :
    endpoints coords (a ++ b) = endpoints coords a ++ endpoints coords b := by
  induction a with
  | nil => simp [endpoints]
  | cons e a ih => simp [endpoints] at ih ⊢; rw [ih]

theorem mem_endpoints_iff (coords : List Coord) (objs : List EdgeData) (c : Coord) :
    c ∈ endpoints coords objs ↔
      ∃ e ∈ objs, c = coordAt coords e.u ∨ c = coordAt coords e.v := by
  induction objs with
  | nil => simp [endpoints]
  | cons e objs ih =>
    simp only [endpoints, List.foldr_cons, List.mem_cons] at ih ⊢
    constructor
    · intro h
      rcases h with h | h | h
      · exact ⟨e, Or.inl rfl, Or.inl h⟩
      · exact ⟨e, Or.inl rfl, Or.inr h⟩
      · obtain ⟨e2, he2, hc⟩ := ih.mp h
        exact ⟨e2, Or.inr he2, hc⟩
    · intro ⟨e2, he2, hc⟩
      rcases he2 with rfl | he2
      · rcases hc with rfl | rfl
        · exact Or.inl rfl
        · exact Or.inr (Or.inl rfl)
      · exact Or.inr (Or.inr (ih.mpr ⟨e2, he2, hc⟩))

theorem mem_segsOfList (cs : List RTree) (e : EdgeData) :
    e ∈ segsOfList cs ↔ ∃ ch ∈ cs, e ∈ ch.segsOf := by
  induction cs with
  | nil => simp [segsOfList]
  | cons ch cs ih =>
    simp only [segsOfList, List.mem_append, List.mem_cons, ih]
    constructor
    · intro h
      rcases h with h | ⟨c2, hc2, hm⟩
      · exact ⟨ch, Or.inl rfl, h⟩
      · exact ⟨c2, Or.inr hc2, hm⟩
    · intro ⟨c2, hc2, hm⟩
      rcases hc2 with rfl | hc2
      · exact Or.inl hm
      · exact Or.inr ⟨c2, hc2, hm⟩

theorem inRect_of_sub {r r2 : RectangleInt2D} {c : Coord}
    (hsub : rectSub r r2) (h : inRect r c) : inRect r2 c := by
  obtain ⟨a1, a2, a3, a4⟩ := hsub
  obtain ⟨b1, b2, b3, b4⟩ := h
  exact ⟨by omega, by omega, by omega, by omega⟩

theorem WF_endpoints {coords : List Coord} {t : RTree} (hwf : WF coords t) :
    ∀ c ∈ endpoints coords t.segsOf, inRect t.mbrOf c := by
  induction hwf with
  | leafWF mbr objs hne hcont hatt => exact hcont
  | innerWF mbr cs hne hwfc hsub hatt ih =>
    intro c hc
    simp only [RTree.segsOf] at hc
    obtain ⟨e, he, hcuv⟩ := (mem_endpoints_iff coords _ c).mp hc
    obtain ⟨ch, hch, hem⟩ := (mem_segsOfList cs e).mp he
    have hcin : c ∈ endpoints coords ch.segsOf := by
      rw [mem_endpoints_iff]
      exact ⟨e, hem, hcuv⟩
    exact inRect_of_sub (hsub ch hch) (ih ch hch c hcin)

theorem WF_attains {coords : List Coord} {t : RTree} (hwf : WF coords t) :
    attainsRect coords t.segsOf t.mbrOf := by
  cases hwf with
  | leafWF mbr objs hne hcont hatt => exact hatt
  | innerWF mbr cs hne hwfc hsub hatt => exact hatt

theorem WF_segs_ne {coords : List Coord} {t : RTree} (hwf : WF coords t) :
    t.segsOf ≠ [] := by
  induction hwf with
  | leafWF mbr objs hne hcont hatt => exact hne
  | innerWF mbr cs hne hwfc hsub hatt ih =>
    cases cs with
    | nil => exact absurd rfl hne
    | cons ch cs =>
      simp only [RTree.segsOf, segsOfList]
      intro h
      obtain ⟨h1, _⟩ := List.append_eq_nil.mp h
      exact ih ch (by simp) h1

theorem WF_valid {coords : List Coord} {t : RTree} (hwf : WF coords t) :
    (t.mbrOf).Valid := by
  have hne := WF_segs_ne hwf
  obtain ⟨e, he⟩ := List.exists_mem_of_ne_nil _ hne
  have hc : coordAt coords e.u ∈ endpoints coords t.segsOf := by
    rw [mem_endpoints_iff]
    exact ⟨e, he, Or.inl rfl⟩
  exact valid_of_inRect (WF_endpoints hwf _ hc)

theorem seg_le_coord {coords : List Coord} {t : RTree} (p : Coord) {c : Coord}
    (hwf : WF coords t) (hc : c ∈ endpoints coords t.segsOf) :
    ∃ e ∈ t.segsOf, segDistSq coords p e ≤ approxDistSq p c := by
  obtain ⟨e, he, hcuv⟩ := (mem_endpoints_iff coords _ c).mp hc
  refine ⟨e, he, ?bd⟩
  case bd =>
    rcases hcuv with rfl | rfl
    · exact (perpDistSq_le_endpoints _ _ p).1
    · exact (perpDistSq_le_endpoints _ _ p).2

theorem side_lat {coords : List Coord} {t : RTree} (p : Coord) (latv : Int)
    (hwf : WF coords t)
    (hav : ∃ c ∈ endpoints coords t.segsOf, c.lat = latv) :
    ∃ e ∈ t.segsOf, segDistSq coords p e ≤
      max (approxDistSq p ⟨latv, (t.mbrOf).min_lon⟩)
          (approxDistSq p ⟨latv, (t.mbrOf).max_lon⟩) := by
  obtain ⟨c, hcm, hclat⟩ := hav
  obtain ⟨clat, clon⟩ := c
  obtain ⟨e, he, hbd⟩ := seg_le_coord p hwf hcm
  refine ⟨e, he, le_trans hbd ?bd2⟩
  case bd2 =>
    have hcont := WF_endpoints hwf _ hcm
    obtain ⟨h1, h2, h3, h4⟩ := hcont
    dsimp only at hclat h1 h2 h3 h4
    subst hclat
    obtain ⟨plat, plon⟩ := p
    simp only [approxDistSq, distSqQ, Coord.toQ]
    have key : ((plon : ℚ) - (clon : ℚ)) ^ 2 ≤
        max (((plon : ℚ) - ((t.mbrOf).min_lon : ℚ)) ^ 2)
            (((plon : ℚ) - ((t.mbrOf).max_lon : ℚ)) ^ 2) := by
      apply sq_between_le_max
      · exact_mod_cast h3
      · exact_mod_cast h4
    rcases max_cases (((plon : ℚ) - ((t.mbrOf).min_lon : ℚ)) ^ 2)
        (((plon : ℚ) - ((t.mbrOf).max_lon : ℚ)) ^ 2) with ⟨hm, _⟩ | ⟨hm, _⟩ <;>
      rw [hm] at key
    · exact le_max_of_le_left (by linarith)
    · exact le_max_of_le_right (by linarith)

theorem side_lon {coords : List Coord} {t : RTree} (p : Coord) (lonv : Int)
    (hwf : WF coords t)
    (hav : ∃ c ∈ endpoints coords t.segsOf, c.lon = lonv) :
    ∃ e ∈ t.segsOf, segDistSq coords p e ≤
      max (approxDistSq p ⟨(t.mbrOf).min_lat, lonv⟩)
          (approxDistSq p ⟨(t.mbrOf).max_lat, lonv⟩) := by
  obtain ⟨c, hcm, hclon⟩ := hav
  obtain ⟨clat, clon⟩ := c
  obtain ⟨e, he, hbd⟩ := seg_le_coord p hwf hcm
  refine ⟨e, he, le_trans hbd ?bd2⟩
  case bd2 =>
    have hcont := WF_endpoints hwf _ hcm
    obtain ⟨h1, h2, h3, h4⟩ := hcont
    dsimp only at hclon h1 h2 h3 h4
    subst hclon
    obtain ⟨plat, plon⟩ := p
    simp only [approxDistSq, distSqQ, Coord.toQ]
    have key : ((plat : ℚ) - (clat : ℚ)) ^ 2 ≤
        max (((plat : ℚ) - ((t.mbrOf).min_lat : ℚ)) ^ 2)
            (((plat : ℚ) - ((t.mbrOf).max_lat : ℚ)) ^ 2) := by
      apply sq_between_le_max
      · exact_mod_cast h1
      · exact_mod_cast h2
    rcases max_cases (((plat : ℚ) - ((t.mbrOf).min_lat : ℚ)) ^ 2)
        (((plat : ℚ) - ((t.mbrOf).max_lat : ℚ)) ^ 2) with ⟨hm, _⟩ | ⟨hm, _⟩ <;>
      rw [hm] at key
    · exact le_max_of_le_left (by linarith)
    · exact le_max_of_le_right (by linarith)

theorem minmax_guarantee {coords : List Coord} {t : RTree} (p : Coord)
    (hwf : WF coords t) :
    ∃ e ∈ t.segsOf, segDistSq coords p e ≤ (t.mbrOf).GetMinMaxDist p := by
  obtain ⟨hmin_lat, hmax_lat, hmin_lon, hmax_lon⟩ := WF_attains hwf
  set r := t.mbrOf with hr
  set ul := approxDistSq p ⟨r.max_lat, r.min_lon⟩ with hul
  set ur := approxDistSq p ⟨r.max_lat, r.max_lon⟩ with hur
  set lr := approxDistSq p ⟨r.min_lat, r.max_lon⟩ with hlr
  set ll := approxDistSq p ⟨r.min_lat, r.min_lon⟩ with hll
  have htop : ∃ e ∈ t.segsOf, segDistSq coords p e ≤ max ul ur := by
    simpa using side_lat p r.max_lat hwf hmax_lat
  have hright : ∃ e ∈ t.segsOf, segDistSq coords p e ≤ max ur lr := by
    have := side_lon p r.max_lon hwf hmax_lon
    simpa [max_comm] using this
  have hbot : ∃ e ∈ t.segsOf, segDistSq coords p e ≤ max lr ll := by
    have := side_lat p r.min_lat hwf hmin_lat
    simpa [max_comm] using this
  have hleft : ∃ e ∈ t.segsOf, segDistSq coords p e ≤ max ll ul := by
    simpa using side_lon p r.min_lon hwf hmin_lon
  have hgoal : r.GetMinMaxDist p =
      min (min (max ul ur) (max ur lr)) (min (max lr ll) (max ll ul)) := rfl
  rw [hgoal]
  rcases min_cases (min (max ul ur) (max ur lr)) (min (max lr ll) (max ll ul)) with
    ⟨hm1, _⟩ | ⟨hm1, _⟩ <;> rw [hm1]
  · rcases min_cases (max ul ur) (max ur lr) with ⟨hm2, _⟩ | ⟨hm2, _⟩ <;> rw [hm2]
    · exact htop
    · exact hright
  · rcases min_cases (max lr ll) (max ll ul) with ⟨hm2, _⟩ | ⟨hm2, _⟩ <;> rw [hm2]
    · exact hbot
    · exact hleft

theorem chunkListGo_ne_nil {α : Type} (n : Nat) :
    ∀ (fuel : Nat) (l : List α) (g : List α), g ∈ chunkListGo (n + 1) fuel l → g ≠ [] := by
  intro fuel
  induction fuel with
  | zero => intro l g h; simp [chunkListGo] at h
  | succ fuel ih =>
    intro l g h
    cases l with
    | nil => simp [chunkListGo] at h
    | cons y ys =>
      rw [chunkListGo] at h
      rcases List.mem_cons.mp h with h2 | h2
      · subst h2; simp
      · exact ih _ _ h2

theorem chunkList_ne_nil {α : Type} (n : Nat) (l : List α) (g : List α)
    (h : g ∈ chunkList n l) : g ≠ [] := by
  cases n with
  | zero => simp [chunkList] at h
  | succ m => exact chunkListGo_ne_nil m _ _ _ h

theorem insertByKey_mem (key : EdgeData → Int) (e x : EdgeData) (l : List EdgeData) :
    x ∈ insertByKey key e l ↔ x = e ∨ x ∈ l := by
  induction l with
  | nil => simp [insertByKey]
  | cons y ys ih =>
    rw [insertByKey]
    split
    · simp
    · simp only [List.mem_cons, ih]
      tauto

theorem sortByKey_mem (key : EdgeData → Int) (l : List EdgeData) (x : EdgeData) :
    x ∈ sortByKey key l ↔ x ∈ l := by
  induction l with
  | nil => simp [sortByKey]
  | cons y ys ih =>
    simp only [sortByKey] at ih ⊢
    rw [List.foldr_cons, insertByKey_mem]
    simp [ih]

theorem endpoints_ne_nil (coords : List Coord) (objs : List EdgeData)
    (h : objs ≠ []) : endpoints coords objs ≠ [] := by
  cases objs with
  | nil => exact absurd rfl h
  | cons e l => simp [endpoints]

theorem rectSub_refl (r : RectangleInt2D) : rectSub r r :=
  ⟨le_refl _, le_refl _, le_refl _, le_refl _⟩

theorem rectSub_trans {a b c : RectangleInt2D}
    (h1 : rectSub a b) (h2 : rectSub b c) : rectSub a c := by
  obtain ⟨x1, x2, x3, x4⟩ := h1
  obtain ⟨y1, y2, y3, y4⟩ := h2
  exact ⟨by omega, by omega, by omega, by omega⟩

theorem mbrStep_widens (coords : List Coord) (r : RectangleInt2D) (e : EdgeData) :
    rectSub r (mbrStep coords r e) := by
  unfold rectSub mbrStep
  dsimp only
  omega

theorem mbrStep_contains (coords : List Coord) (r : RectangleInt2D) (e : EdgeData) :
    inRect (mbrStep coords r e) (coordAt coords e.u) ∧
      inRect (mbrStep coords r e) (coordAt coords e.v) := by
  unfold inRect mbrStep
  dsimp only
  omega

theorem foldl_mbrStep_widens (coords : List Coord) (objs : List EdgeData) :
    ∀ r : RectangleInt2D, rectSub r (objs.foldl (mbrStep coords) r) := by
  induction objs with
  | nil => intro r; exact rectSub_refl r
  | cons e objs ih =>
    intro r
    rw [List.foldl_cons]
    exact rectSub_trans (mbrStep_widens coords r e) (ih _)

theorem foldl_mbrStep_contains (coords : List Coord) (objs : List EdgeData) :
    ∀ r : RectangleInt2D, ∀ c ∈ endpoints coords objs,
      inRect (objs.foldl (mbrStep coords) r) c := by
  induction objs with
  | nil => intro r c hc; simp [endpoints] at hc
  | cons e objs ih =>
    intro r c hc
    simp only [endpoints, List.foldr_cons, List.mem_cons] at hc
    rw [List.foldl_cons]
    rcases hc with rfl | rfl | hc
    · exact inRect_of_sub (foldl_mbrStep_widens coords objs _)
        (mbrStep_contains coords r e).1
    · exact inRect_of_sub (foldl_mbrStep_widens coords objs _)
        (mbrStep_contains coords r e).2
    · exact ih _ c hc

theorem initMBR_contains (coords : List Coord) (objs : List EdgeData) :
    ∀ c ∈ endpoints coords objs, inRect (initMBR coords objs) c :=
  foldl_mbrStep_contains coords objs RectangleInt2D.emptyRect

theorem foldl_mbrStep_cases (coords : List Coord) (objs : List EdgeData) :
    ∀ r : RectangleInt2D,
      ((objs.foldl (mbrStep coords) r).min_lat = r.min_lat ∨
        ∃ c ∈ endpoints coords objs, (objs.foldl (mbrStep coords) r).min_lat = c.lat) ∧
      ((objs.foldl (mbrStep coords) r).max_lat = r.max_lat ∨
        ∃ c ∈ endpoints coords objs, (objs.foldl (mbrStep coords) r).max_lat = c.lat) ∧
      ((objs.foldl (mbrStep coords) r).min_lon = r.min_lon ∨
        ∃ c ∈ endpoints coords objs, (objs.foldl (mbrStep coords) r).min_lon = c.lon) ∧
      ((objs.foldl (mbrStep coords) r).max_lon = r.max_lon ∨
        ∃ c ∈ endpoints coords objs, (objs.foldl (mbrStep coords) r).max_lon = c.lon) := by
  induction objs with
  | nil => intro r; simp [endpoints]
  | cons e objs ih =>
    intro r
    rw [List.foldl_cons]
    obtain ⟨i1, i2, i3, i4⟩ := ih (mbrStep coords r e)
    have hmem1 : coordAt coords e.u ∈ endpoints coords (e :: objs) := by
      simp [endpoints]
    have hmem2 : coordAt coords e.v ∈ endpoints coords (e :: objs) := by
      simp [endpoints]
    have hsub : ∀ c ∈ endpoints coords objs, c ∈ endpoints coords (e :: objs) := by
      intro c hc; simp [endpoints]; tauto
    refine ⟨?p1, ?p2, ?p3, ?p4⟩
    case p1 =>
      rcases i1 with h | ⟨c, hc, hce⟩
      · rw [h]
        have hstep : (mbrStep coords r e).min_lat = r.min_lat ∨
            (mbrStep coords r e).min_lat = (coordAt coords e.u).lat ∨
            (mbrStep coords r e).min_lat = (coordAt coords e.v).lat := by
          unfold mbrStep; dsimp only; omega
        rcases hstep with h2 | h2 | h2
        · exact Or.inl h2
        · exact Or.inr ⟨_, hmem1, h2⟩
        · exact Or.inr ⟨_, hmem2, h2⟩
      · exact Or.inr ⟨c, hsub c hc, hce⟩
    case p2 =>
      rcases i2 with h | ⟨c, hc, hce⟩
      · rw [h]
        have hstep : (mbrStep coords r e).max_lat = r.max_lat ∨
            (mbrStep coords r e).max_lat = (coordAt coords e.u).lat ∨
            (mbrStep coords r e).max_lat = (coordAt coords e.v).lat := by
          unfold mbrStep; dsimp only; omega
        rcases hstep with h2 | h2 | h2
        · exact Or.inl h2
        · exact Or.inr ⟨_, hmem1, h2⟩
        · exact Or.inr ⟨_, hmem2, h2⟩
      · exact Or.inr ⟨c, hsub c hc, hce⟩
    case p3 =>
      rcases i3 with h | ⟨c, hc, hce⟩
      · rw [h]
        have hstep : (mbrStep coords r e).min_lon = r.min_lon ∨
            (mbrStep coords r e).min_lon = (coordAt coords e.u).lon ∨
            (mbrStep coords r e).min_lon = (coordAt coords e.v).lon := by
          unfold mbrStep; dsimp only; omega
        rcases hstep with h2 | h2 | h2
        · exact Or.inl h2
        · exact Or.inr ⟨_, hmem1, h2⟩
        · exact Or.inr ⟨_, hmem2, h2⟩
      · exact Or.inr ⟨c, hsub c hc, hce⟩
    case p4 =>
      rcases i4 with h | ⟨c, hc, hce⟩
      · rw [h]
        have hstep : (mbrStep coords r e).max_lon = r.max_lon ∨
            (mbrStep coords r e).max_lon = (coordAt coords e.u).lon ∨
            (mbrStep coords r e).max_lon = (coordAt coords e.v).lon := by
          unfold mbrStep; dsimp only; omega
        rcases hstep with h2 | h2 | h2
        · exact Or.inl h2
        · exact Or.inr ⟨_, hmem1, h2⟩
        · exact Or.inr ⟨_, hmem2, h2⟩
      · exact Or.inr ⟨c, hsub c hc, hce⟩

theorem initMBR_attains (coords : List Coord) (objs : List EdgeData)
    (hne : objs ≠ [])
    (hok : ∀ c ∈ endpoints coords objs, coordOK c) :
    attainsRect coords objs (initMBR coords objs) := by
  obtain ⟨c0, hc0⟩ := List.exists_mem_of_ne_nil _ (endpoints_ne_nil coords objs hne)
  have hcont := initMBR_contains coords objs
  obtain ⟨i1, i2, i3, i4⟩ := foldl_mbrStep_cases coords objs RectangleInt2D.emptyRect
  refine ⟨?a1, ?a2, ?a3, ?a4⟩
  case a1 =>
    rcases i1 with h | ⟨c, hc, hce⟩
    · refine ⟨c0, hc0, ?z1⟩
      obtain ⟨k1, _, _, _⟩ := hcont c0 hc0
      obtain ⟨_, k2, _, _⟩ := hok c0 hc0
      simp only [initMBR] at h k1 ⊢
      rw [h] at k1 ⊢
      simp only [RectangleInt2D.emptyRect] at k1 ⊢
      omega
    · exact ⟨c, hc, hce.symm⟩
  case a2 =>
    rcases i2 with h | ⟨c, hc, hce⟩
    · refine ⟨c0, hc0, ?z2⟩
      obtain ⟨_, k1, _, _⟩ := hcont c0 hc0
      obtain ⟨k2, _, _, _⟩ := hok c0 hc0
      simp only [initMBR] at h k1 ⊢
      rw [h] at k1 ⊢
      simp only [RectangleInt2D.emptyRect] at k1 ⊢
      omega
    · exact ⟨c, hc, hce.symm⟩
  case a3 =>
    rcases i3 with h | ⟨c, hc, hce⟩
    · refine ⟨c0, hc0, ?z3⟩
      obtain ⟨_, _, k1, _⟩ := hcont c0 hc0
      obtain ⟨_, _, _, k2⟩ := hok c0 hc0
      simp only [initMBR] at h k1 ⊢
      rw [h] at k1 ⊢
      simp only [RectangleInt2D.emptyRect] at k1 ⊢
      omega
    · exact ⟨c, hc, hce.symm⟩
  case a4 =>
    rcases i4 with h | ⟨c, hc, hce⟩
    · refine ⟨c0, hc0, ?z4⟩
      obtain ⟨_, _, _, k1⟩ := hcont c0 hc0
      obtain ⟨_, _, k2, _⟩ := hok c0 hc0
      simp only [initMBR] at h k1 ⊢
      rw [h] at k1 ⊢
      simp only [RectangleInt2D.emptyRect] at k1 ⊢
      omega
    · exact ⟨c, hc, hce.symm⟩

theorem mergeMBR_widens (r o : RectangleInt2D) :
    rectSub r (RectangleInt2D.mergeMBR r o) ∧ rectSub o (RectangleInt2D.mergeMBR r o) := by
  unfold rectSub RectangleInt2D.mergeMBR
  dsimp only
  omega

theorem foldl_mergeMBR_widens (rs : List RectangleInt2D) :
    ∀ r : RectangleInt2D, rectSub r (rs.foldl RectangleInt2D.mergeMBR r) := by
  induction rs with
  | nil => intro r; exact rectSub_refl r
  | cons o rs ih =>
    intro r
    rw [List.foldl_cons]
    exact rectSub_trans (mergeMBR_widens r o).1 (ih _)

theorem foldl_mergeMBR_mem (rs : List RectangleInt2D) :
    ∀ r : RectangleInt2D, ∀ s ∈ rs, rectSub s (rs.foldl RectangleInt2D.mergeMBR r) := by
  induction rs with
  | nil => intro r s hs; simp at hs
  | cons o rs ih =>
    intro r s hs
    rw [List.foldl_cons]
    rcases List.mem_cons.mp hs with rfl | hs
    · exact rectSub_trans (mergeMBR_widens r s).2 (foldl_mergeMBR_widens rs _)
    · exact ih _ s hs

theorem mergedMBR_mem (rs : List RectangleInt2D) :
    ∀ s ∈ rs, rectSub s (mergedMBR rs) :=
  foldl_mergeMBR_mem rs RectangleInt2D.emptyRect

theorem foldl_mergeMBR_cases (rs : List RectangleInt2D) :
    ∀ r : RectangleInt2D,
      ((rs.foldl RectangleInt2D.mergeMBR r).min_lat = r.min_lat ∨
        ∃ s ∈ rs, (rs.foldl RectangleInt2D.mergeMBR r).min_lat = s.min_lat) ∧
      ((rs.foldl RectangleInt2D.mergeMBR r).max_lat = r.max_lat ∨
        ∃ s ∈ rs, (rs.foldl RectangleInt2D.mergeMBR r).max_lat = s.max_lat) ∧
      ((rs.foldl RectangleInt2D.mergeMBR r).min_lon = r.min_lon ∨
        ∃ s ∈ rs, (rs.foldl RectangleInt2D.mergeMBR r).min_lon = s.min_lon) ∧
      ((rs.foldl RectangleInt2D.mergeMBR r).max_lon = r.max_lon ∨
        ∃ s ∈ rs, (rs.foldl RectangleInt2D.mergeMBR r).max_lon = s.max_lon) := by
  induction rs with
  | nil => intro r; simp
  | cons o rs ih =>
    intro r
    rw [List.foldl_cons]
    obtain ⟨i1, i2, i3, i4⟩ := ih (RectangleInt2D.mergeMBR r o)
    refine ⟨?p1, ?p2, ?p3, ?p4⟩
    case p1 =>
      rcases i1 with h | ⟨s, hs, hse⟩
      · rw [h]
        have hstep : (RectangleInt2D.mergeMBR r o).min_lat = r.min_lat ∨
            (RectangleInt2D.mergeMBR r o).min_lat = o.min_lat := by
          unfold RectangleInt2D.mergeMBR; dsimp only; omega
        rcases hstep with h2 | h2
        · exact Or.inl h2
        · exact Or.inr ⟨o, by simp, h2⟩
      · exact Or.inr ⟨s, by simp [hs], hse⟩
    case p2 =>
      rcases i2 with h | ⟨s, hs, hse⟩
      · rw [h]
        have hstep : (RectangleInt2D.mergeMBR r o).max_lat = r.max_lat ∨
            (RectangleInt2D.mergeMBR r o).max_lat = o.max_lat := by
          unfold RectangleInt2D.mergeMBR; dsimp only; omega
        rcases hstep with h2 | h2
        · exact Or.inl h2
        · exact Or.inr ⟨o, by simp, h2⟩
      · exact Or.inr ⟨s, by simp [hs], hse⟩
    case p3 =>
      rcases i3 with h | ⟨s, hs, hse⟩
      · rw [h]
        have hstep : (RectangleInt2D.mergeMBR r o).min_lon = r.min_lon ∨
            (RectangleInt2D.mergeMBR r o).min_lon = o.min_lon := by
          unfold RectangleInt2D.mergeMBR; dsimp only; omega
        rcases hstep with h2 | h2
        · exact Or.inl h2
        · exact Or.inr ⟨o, by simp, h2⟩
      · exact Or.inr ⟨s, by simp [hs], hse⟩
    case p4 =>
      rcases i4 with h | ⟨s, hs, hse⟩
      · rw [h]
        have hstep : (RectangleInt2D.mergeMBR r o).max_lon = r.max_lon ∨
            (RectangleInt2D.mergeMBR r o).max_lon = o.max_lon := by
          unfold RectangleInt2D.mergeMBR; dsimp only; omega
        rcases hstep with h2 | h2
        · exact Or.inl h2
        · exact Or.inr ⟨o, by simp, h2⟩
      · exact Or.inr ⟨s, by simp [hs], hse⟩

theorem endpoints_mem_of_child {coords : List Coord} {g : List RTree} {ch : RTree}
    (hch : ch ∈ g) {c : Coord} (hc : c ∈ endpoints coords ch.segsOf) :
    c ∈ endpoints coords (segsOfList g) := by
  rw [mem_endpoints_iff] at hc ⊢
  obtain ⟨e, he, hcc⟩ := hc
  exact ⟨e, (mem_segsOfList g e).mpr ⟨ch, hch, he⟩, hcc⟩

theorem innerWF_of_group (coords : List Coord) (g : List RTree) (hne : g ≠ [])
    (hwfc : ∀ ch ∈ g, WF coords ch)
    (hok : ∀ c ∈ endpoints coords (segsOfList g), coordOK c) :
    WF coords (.innerN (mergedMBR (g.map RTree.mbrOf)) g) := by
  refine WF.innerWF _ _ hne hwfc ?hsub ?hatt
  case hsub =>
    intro ch hch
    exact mergedMBR_mem _ _ (List.mem_map_of_mem RTree.mbrOf hch)
  case hatt =>
    obtain ⟨ch0, hch0⟩ := List.exists_mem_of_ne_nil _ hne
    obtain ⟨i1, i2, i3, i4⟩ := foldl_mergeMBR_cases (g.map RTree.mbrOf)
      RectangleInt2D.emptyRect
    refine ⟨?a1, ?a2, ?a3, ?a4⟩
    case a1 =>
      rcases i1 with h | ⟨s, hs, hse⟩
      · obtain ⟨⟨c, hcm, hclat⟩, _, _, _⟩ := WF_attains (hwfc ch0 hch0)
        have hcg := endpoints_mem_of_child hch0 hcm
        refine ⟨c, hcg, ?w1⟩
        have hsb := (mergedMBR_mem (g.map RTree.mbrOf) _
          (List.mem_map_of_mem RTree.mbrOf hch0)).2.2.1
        obtain ⟨_, k2, _, _⟩ := hok c hcg
        simp only [mergedMBR] at hsb ⊢
        rw [show RectangleInt2D.emptyRect.min_lat = 2147483647 from rfl] at h
        omega
      · obtain ⟨ch, hch, hchs⟩ := List.mem_map.mp hs
        obtain ⟨⟨c, hcm, hclat⟩, _, _, _⟩ := WF_attains (hwfc ch hch)
        refine ⟨c, endpoints_mem_of_child hch hcm, ?w1b⟩
        simp only [mergedMBR] at hse ⊢
        rw [hse, ← hchs, hclat]
    case a2 =>
      rcases i2 with h | ⟨s, hs, hse⟩
      · obtain ⟨_, ⟨c, hcm, hclat⟩, _, _⟩ := WF_attains (hwfc ch0 hch0)
        have hcg := endpoints_mem_of_child hch0 hcm
        refine ⟨c, hcg, ?w2⟩
        have hsb := (mergedMBR_mem (g.map RTree.mbrOf) _
          (List.mem_map_of_mem RTree.mbrOf hch0)).2.2.2
        obtain ⟨k2, _, _, _⟩ := hok c hcg
        simp only [mergedMBR] at hsb ⊢
        rw [show RectangleInt2D.emptyRect.max_lat = -2147483648 from rfl] at h
        omega
      · obtain ⟨ch, hch, hchs⟩ := List.mem_map.mp hs
        obtain ⟨_, ⟨c, hcm, hclat⟩, _, _⟩ := WF_attains (hwfc ch hch)
        refine ⟨c, endpoints_mem_of_child hch hcm, ?w2b⟩
        simp only [mergedMBR] at hse ⊢
        rw [hse, ← hchs, hclat]
    case a3 =>
      rcases i3 with h | ⟨s, hs, hse⟩
      · obtain ⟨_, _, ⟨c, hcm, hclon⟩, _⟩ := WF_attains (hwfc ch0 hch0)
        have hcg := endpoints_mem_of_child hch0 hcm
        refine ⟨c, hcg, ?w3⟩
        have hsb := (mergedMBR_mem (g.map RTree.mbrOf) _
          (List.mem_map_of_mem RTree.mbrOf hch0)).1
        obtain ⟨_, _, _, k2⟩ := hok c hcg
        simp only [mergedMBR] at hsb ⊢
        rw [show RectangleInt2D.emptyRect.min_lon = 2147483647 from rfl] at h
        omega
      · obtain ⟨ch, hch, hchs⟩ := List.mem_map.mp hs
        obtain ⟨_, _, ⟨c, hcm, hclon⟩, _⟩ := WF_attains (hwfc ch hch)
        refine ⟨c, endpoints_mem_of_child hch hcm, ?w3b⟩
        simp only [mergedMBR] at hse ⊢
        rw [hse, ← hchs, hclon]
    case a4 =>
      rcases i4 with h | ⟨s, hs, hse⟩
      · obtain ⟨_, _, _, ⟨c, hcm, hclon⟩⟩ := WF_attains (hwfc ch0 hch0)
        have hcg := endpoints_mem_of_child hch0 hcm
        refine ⟨c, hcg, ?w4⟩
        have hsb := (mergedMBR_mem (g.map RTree.mbrOf) _
          (List.mem_map_of_mem RTree.mbrOf hch0)).2.1
        obtain ⟨_, _, k2, _⟩ := hok c hcg
        simp only [mergedMBR] at hsb ⊢
        rw [show RectangleInt2D.emptyRect.max_lon = -2147483648 from rfl] at h
        omega
      · obtain ⟨ch, hch, hchs⟩ := List.mem_map.mp hs
        obtain ⟨_, _, _, ⟨c, hcm, hclon⟩⟩ := WF_attains (hwfc ch hch)
        refine ⟨c, endpoints_mem_of_child hch hcm, ?w4b⟩
        simp only [mergedMBR] at hse ⊢
        rw [hse, ← hchs, hclon]

theorem segsOfList_subset {segs : List EdgeData} {g : List RTree}
    (h : ∀ ch ∈ g, ∀ e ∈ ch.segsOf, e ∈ segs) :
    ∀ e ∈ segsOfList g, e ∈ segs := by
  intro e he
  obtain ⟨ch, hch, hm⟩ := (mem_segsOfList g e).mp he
  exact h ch hch e hm

theorem endpoints_coordOK {coords : List Coord} {segs objs : List EdgeData}
    (hok : ∀ e ∈ segs, coordOK (coordAt coords e.u) ∧ coordOK (coordAt coords e.v))
    (hsub : ∀ e ∈ objs, e ∈ segs) :
    ∀ c ∈ endpoints coords objs, coordOK c := by
  intro c hc
  obtain ⟨e, he, hcc⟩ := (mem_endpoints_iff coords objs c).mp hc
  rcases hcc with rfl | rfl
  · exact (hok e (hsub e he)).1
  · exact (hok e (hsub e he)).2

theorem leafLevel_OK {coords : List Coord} {segs : List EdgeData} (L : Nat)
    (sorted : List EdgeData) (hs : ∀ e ∈ sorted, e ∈ segs)
    (hok : ∀ e ∈ segs, coordOK (coordAt coords e.u) ∧ coordOK (coordAt coords e.v)) :
    LevelOK coords segs (leafLevel coords L sorted) := by
  intro t ht
  obtain ⟨c, hc, rfl⟩ := List.mem_map.mp ht
  have hne := chunkList_ne_nil L sorted c hc
  have hcs : ∀ e ∈ c, e ∈ segs := fun e he => hs e (chunkList_subset L sorted c hc e he)
  have hokc := endpoints_coordOK hok hcs
  refine ⟨WF.leafWF _ _ hne (initMBR_contains coords c) (initMBR_attains coords c hne hokc), ?g⟩
  case g => exact hcs

theorem packLevel_OK {coords : List Coord} {segs : List EdgeData} (B : Nat)
    {level : List RTree} (hlev : LevelOK coords segs level)
    (hok : ∀ e ∈ segs, coordOK (coordAt coords e.u) ∧ coordOK (coordAt coords e.v)) :
    LevelOK coords segs (packLevel B level) := by
  intro t ht
  obtain ⟨g, hg, rfl⟩ := List.mem_map.mp ht
  have hne := chunkList_ne_nil B level g hg
  have hgsub : ∀ ch ∈ g, ch ∈ level := chunkList_subset B level g hg
  have hwfc : ∀ ch ∈ g, WF coords ch := fun ch hch => (hlev ch (hgsub ch hch)).1
  have hsegs : ∀ e ∈ segsOfList g, e ∈ segs :=
    segsOfList_subset (fun ch hch => (hlev ch (hgsub ch hch)).2)
  refine ⟨innerWF_of_group coords g hne hwfc (endpoints_coordOK hok hsegs), ?g2⟩
  case g2 => exact hsegs

theorem packToRoot_OK {coords : List Coord} {segs : List EdgeData} (B : Nat) :
    ∀ (fuel : Nat) (level : List RTree) (T : RTree),
    LevelOK coords segs level →
    (∀ e ∈ segs, coordOK (coordAt coords e.u) ∧ coordOK (coordAt coords e.v)) →
    packToRoot B fuel level = some T →
    WF coords T ∧ ∀ e ∈ T.segsOf, e ∈ segs := by
  intro fuel
  induction fuel with
  | zero =>
    intro level T hlev hok h
    cases level with
    | nil => simp [packToRoot] at h
    | cons t ts =>
      cases ts with
      | nil =>
        simp only [packToRoot, Option.some.injEq] at h
        subst h
        exact hlev _ (by simp)
      | cons t2 ts2 => simp [packToRoot] at h
  | succ fuel ih =>
    intro level T hlev hok h
    cases level with
    | nil => simp [packToRoot] at h
    | cons t ts =>
      cases ts with
      | nil =>
        simp only [packToRoot, Option.some.injEq] at h
        subst h
        exact hlev _ (by simp)
      | cons t2 ts2 =>
        rw [packToRoot] at h
        exact ih _ T (packLevel_OK B hlev hok) hok h

theorem buildRTree_WF {L B : Nat} {key : EdgeData → Int} {segs : List EdgeData}
    {coords : List Coord} {T : RTree}
    (hok : ∀ e ∈ segs, coordOK (coordAt coords e.u) ∧ coordOK (coordAt coords e.v))
    (hb : buildRTree L B key segs coords = some T) :
    WF coords T ∧ ∀ e ∈ T.segsOf, e ∈ segs := by
  rw [buildRTree] at hb
  refine packToRoot_OK B _ _ T ?hlev hok hb
  case hlev =>
    exact leafLevel_OK L _ (fun e he => (sortByKey_mem key segs e).mp he) hok

theorem seg_of_WF_bound {coords : List Coord} {t : RTree} (p : Coord)
    (hwf : WF coords t) {e : EdgeData} (he : e ∈ t.segsOf) :
    (t.mbrOf).GetMinDist p ≤ segDistSq coords p e := by
  have hu : inRect t.mbrOf (coordAt coords e.u) :=
    WF_endpoints hwf _ ((mem_endpoints_iff coords _ _).mpr ⟨e, he, Or.inl rfl⟩)
  have hv : inRect t.mbrOf (coordAt coords e.v) :=
    WF_endpoints hwf _ ((mem_endpoints_iff coords _ _).mpr ⟨e, he, Or.inr rfl⟩)
  exact GetMinDist_le_perpDistSq _ _ _ _ hu hv

theorem covered_bound {coords : List Coord} (p : Coord) {d : ℚ} {ent : QEntry}
    {e : EdgeData} (hok : entOK coords p d ent)
    (hcov : ent = QEntry.segE e ∨ ∃ t, ent = QEntry.nodeE t ∧ e ∈ t.segsOf) :
    d ≤ segDistSq coords p e := by
  rcases hcov with rfl | ⟨t, rfl, he⟩
  · exact le_of_eq hok
  · exact le_trans hok.2 (seg_of_WF_bound p hok.1 he)

theorem incGo_nil {coords : List Coord} {p : Coord} {k maxChecked fuel : Nat}
    {st : IncState} {rs : List (EdgeData × PhantomNode × ℚ)}
    (h : incGo coords p k maxChecked fuel st [] = .ok rs) : rs = st.results := by
  cases fuel with
  | zero => simp [incGo] at h
  | succ fuel =>
    rw [incGo] at h
    rw [show popMinQ ([] : List (ℚ × QEntry)) = none from rfl] at h
    cases h
    rfl

theorem leafPushes_none (coords : List Coord) (p : Coord) (objs : List EdgeData) :
    leafPushes coords p none objs =
      objs.map (fun e => (segDistSq coords p e, QEntry.segE e)) := by
  induction objs with
  | nil => rfl
  | cons e objs ih => simp [leafPushes, ltInf, ih]

theorem childPushes_none (p : Coord) (cs : List RTree) :
    childPushes p none cs =
      cs.map (fun c => ((RTree.mbrOf c).GetMinDist p, QEntry.nodeE c)) := by
  induction cs with
  | nil => rfl
  | cons c cs ih => simp [childPushes, ltInf, ih]

theorem chain_append_one {l : List ℚ} {x : ℚ}
    (hc : List.Chain' (· ≤ ·) l) (hall : ∀ y ∈ l, y ≤ x) :
    List.Chain' (· ≤ ·) (l ++ [x]) := by
  induction l with
  | nil => simp
  | cons a l ih =>
    rw [List.cons_append]
    rw [List.chain'_cons']
    refine ⟨?h1, ih (List.Chain'.tail hc) (fun y hy => hall y (by simp [hy]))⟩
    case h1 =>
      intro z hz
      cases l with
      | nil =>
        simp at hz
        subst hz
        exact hall a (by simp)
      | cons b l2 =>
        simp at hz
        subst hz
        rw [List.chain'_cons] at hc
        exact hc.1
-- appended after geo.lean content for testing
theorem replicate_getElem_none (k i : Nat) (h : i < k) :
    (List.replicate k (none : Option ℚ))[i]? = some none := by
  rw [List.getElem?_eq_getElem (by simpa using h)]
  simp

theorem set_getElem_ne (l : List (Option ℚ)) (i j : Nat) (a : Option ℚ) (h : i ≠ j) :
    (l.set i a)[j]? = l[j]? := by
  rw [List.getElem?_set]
  simp [h]

theorem covered_or_returned_bound {coords : List Coord} {p : Coord}
    {q : List (ℚ × QEntry)} {results : List (EdgeData × PhantomNode × ℚ)}
    {e : EdgeData}
    (hI1 : ∀ de ∈ q, entOK coords p de.1 de.2)
    (hI2 : ∀ r ∈ results, ∀ de ∈ q, r.2.2 ≤ de.1)
    (hce : coveredBy q e ∨ ∃ r ∈ results, r.1 = e) :
    (∃ r ∈ results, r.1 = e) ∨ ∀ r ∈ results, r.2.2 ≤ segDistSq coords p e := by
  rcases hce with ⟨de, hde, hcov⟩ | hret
  · exact Or.inr (fun r hr =>
      le_trans (hI2 r hr de hde) (covered_bound p (hI1 de hde) hcov))
  · exact Or.inl hret

theorem flush_accept_sound (coords : List Coord) (p : Coord) (T : RTree)
    (q : List (ℚ × QEntry)) (results : List (EdgeData × PhantomNode × ℚ))
    (e : EdgeData) (ph : PhantomNode)
    (hI1 : ∀ de ∈ q, entOK coords p de.1 de.2)
    (hI2 : ∀ r ∈ results, ∀ de ∈ q, r.2.2 ≤ de.1)
    (hI3 : List.Chain' (· ≤ ·) (results.map (fun r => r.2.2)))
    (hIx : ∀ r ∈ results, r.2.2 = segDistSq coords p r.1)
    (hI4 : ∀ e2 ∈ T.segsOf, e2.is_in_tiny_cc = false →
      coveredBy q e2 ∨ ∃ r ∈ results, r.1 = e2)
    (hmin : ∀ y ∈ q, segDistSq coords p e ≤ y.1)
    (hlast : ∀ r ∈ results, r.2.2 ≤ segDistSq coords p e) :
    List.Chain' (· ≤ ·)
      ((results ++ [(e, ph, segDistSq coords p e)]).map (fun r => r.2.2)) ∧
    (∀ r ∈ results ++ [(e, ph, segDistSq coords p e)],
      r.2.2 = segDistSq coords p r.1) ∧
    ∀ e2 ∈ T.segsOf, e2.is_in_tiny_cc = false →
      (∃ r ∈ results ++ [(e, ph, segDistSq coords p e)], r.1 = e2) ∨
      ∀ r ∈ results ++ [(e, ph, segDistSq coords p e)],
        r.2.2 ≤ segDistSq coords p e2 := by
  have hI2b : ∀ r ∈ results ++ [(e, ph, segDistSq coords p e)],
      ∀ de ∈ q, r.2.2 ≤ de.1 := by
    intro r hr de hde
    rcases List.mem_append.mp hr with hr2 | hr2
    · exact hI2 r hr2 de hde
    · simp only [List.mem_singleton] at hr2
      subst hr2
      exact hmin de hde
  refine ⟨?c1, ?c2, ?c3⟩
  case c1 =>
    rw [List.map_append]
    refine chain_append_one hI3 ?hall
    case hall =>
      intro y hy
      obtain ⟨r, hr, rfl⟩ := List.mem_map.mp hy
      exact hlast r hr
  case c2 =>
    intro r hr
    rcases List.mem_append.mp hr with hr2 | hr2
    · exact hIx r hr2
    · simp only [List.mem_singleton] at hr2
      subst hr2
      rfl
  case c3 =>
    intro e2 he2 hb2
    refine covered_or_returned_bound hI1 hI2b ?hce
    case hce =>
      rcases hI4 e2 he2 hb2 with hcov | ⟨r, hr, hre⟩
      · exact Or.inl hcov
      · exact Or.inr ⟨r, List.mem_append.mpr (Or.inl hr), hre⟩

theorem incGo_ok_sound (coords : List Coord) (p : Coord) (k maxChecked : Nat)
    (T : RTree) (hk : 0 < k) :
    ∀ (fuel : Nat) (st : IncState) (q : List (ℚ × QEntry))
      (rs : List (EdgeData × PhantomNode × ℚ)),
    (∀ de ∈ q, entOK coords p de.1 de.2) →
    (∀ r ∈ st.results, ∀ de ∈ q, r.2.2 ≤ de.1) →
    List.Chain' (· ≤ ·) (st.results.map (fun r => r.2.2)) →
    (∀ r ∈ st.results, r.2.2 = segDistSq coords p r.1) →
    (∀ e ∈ T.segsOf, e.is_in_tiny_cc = false →
      coveredBy q e ∨ ∃ r ∈ st.results, r.1 = e) →
    st.minFound.length = k →
    (∀ i, st.bigCount ≤ i → i < k → st.minFound[i]? = some none) →
    (q ≠ [] → st.bigCount < k) →
    incGo coords p k maxChecked fuel st q = .ok rs →
    List.Chain' (· ≤ ·) (rs.map (fun r => r.2.2)) ∧
    (∀ r ∈ rs, r.2.2 = segDistSq coords p r.1) ∧
    ∀ e ∈ T.segsOf, e.is_in_tiny_cc = false →
      (∃ r ∈ rs, r.1 = e) ∨ ∀ r ∈ rs, r.2.2 ≤ segDistSq coords p e := by
  intro fuel
  induction fuel with
  | zero =>
    intro st q rs _ _ _ _ _ _ _ _ h
    simp [incGo] at h
  | succ fuel ih =>
    intro st q rs hI1 hI2 hI3 hIx hI4 hlen hmf hI6 h
    rw [incGo] at h
    rcases hpop : popMinQ q with _ | ⟨⟨d, ent⟩, rest⟩
    · -- empty queue: the loop returns the accumulated results
      rw [hpop] at h
      cases h
      have hqnil : q = [] := popMinQ_eq_none.mp hpop
      subst hqnil
      refine ⟨hI3, hIx, ?bpart⟩
      case bpart =>
        intro e he hb
        rcases hI4 e he hb with hcov | hret
        · obtain ⟨de, hde, _⟩ := hcov
          simp at hde
        · exact Or.inl hret
    · have hqne : q ≠ [] := by
        intro hq
        subst hq
        simp [popMinQ] at hpop
      have hbc : st.bigCount < k := hI6 hqne
      have hperm := popMinQ_perm hpop
      have hmin := popMinQ_min hpop
      have hcmem : ((d, ent) : ℚ × QEntry) ∈ q := hperm.symm.subset (by simp)
      have hrestmem : ∀ de ∈ rest, de ∈ q := fun de hde =>
        hperm.symm.subset (by simp [hde])
      have hcur : st.minFound[k - 1]? = some none := hmf (k - 1) (by omega) (by omega)
      rw [hpop] at h
      simp only [hcur] at h
      rw [show gtInf d none = false from rfl] at h
      rw [if_neg (by simp)] at h
      split at h
      · rename_i mbr objs
        obtain ⟨hwn, hdle⟩ :
            WF coords (.leafN mbr objs) ∧
              d ≤ ((RTree.leafN mbr objs).mbrOf).GetMinDist p := hI1 _ hcmem
        rw [leafPushes_none] at h
        split at h
        · have hrs := incGo_nil h
          subst hrs
          refine ⟨hI3, hIx, ?bleaf⟩
          case bleaf =>
            intro e2 he2 hb2
            exact covered_or_returned_bound hI1 hI2 (hI4 e2 he2 hb2)
        · refine ih st _ rs ?f1 ?f2 hI3 hIx ?f4 hlen hmf ?f6 h
          case f1 =>
            intro de hde
            rcases List.mem_append.mp hde with hde2 | hde2
            · exact hI1 de (hrestmem de hde2)
            · obtain ⟨e0, he0, rfl⟩ := List.mem_map.mp hde2
              exact rfl
          case f2 =>
            intro r hr de hde
            rcases List.mem_append.mp hde with hde2 | hde2
            · exact hI2 r hr de (hrestmem de hde2)
            · obtain ⟨e0, he0, rfl⟩ := List.mem_map.mp hde2
              exact le_trans (hI2 r hr _ hcmem)
                (le_trans hdle (seg_of_WF_bound p hwn he0))
          case f4 =>
            intro e2 he2 hb2
            rcases hI4 e2 he2 hb2 with ⟨de, hde, hcov⟩ | hret
            · rcases List.mem_cons.mp (hperm.subset hde) with rfl | hde2
              · rcases hcov with hcs | ⟨t, hnt, het⟩
                · exact absurd hcs (by simp)
                · cases QEntry.nodeE.inj hnt
                  refine Or.inl ⟨(segDistSq coords p e2, QEntry.segE e2), ?m1, Or.inl rfl⟩
                  case m1 =>
                    exact List.mem_append.mpr (Or.inr (List.mem_map.mpr ⟨e2, het, rfl⟩))
              · exact Or.inl ⟨de, List.mem_append.mpr (Or.inl hde2), hcov⟩
            · exact Or.inr hret
          case f6 => exact fun _ => hbc
      · rename_i mbr cs
        obtain ⟨hwn, hdle⟩ :
            WF coords (.innerN mbr cs) ∧
              d ≤ ((RTree.innerN mbr cs).mbrOf).GetMinDist p := hI1 _ hcmem
        have hchwf : ∀ ch ∈ cs, WF coords ch := by
          cases hwn with
          | innerWF mbr cs hne hwfc hsub hatt => exact hwfc
        have hchsub : ∀ ch ∈ cs, rectSub ch.mbrOf mbr := by
          cases hwn with
          | innerWF mbr cs hne hwfc hsub hatt => exact hsub
        have hchkey : ∀ ch ∈ cs,
            ((RTree.innerN mbr cs).mbrOf).GetMinDist p ≤ (ch.mbrOf).GetMinDist p := by
          intro ch hch
          exact GetMinDist_mono _ _ p (WF_valid (hchwf ch hch)) (hchsub ch hch)
        rw [childPushes_none] at h
        split at h
        · have hrs := incGo_nil h
          subst hrs
          refine ⟨hI3, hIx, ?binner⟩
          case binner =>
            intro e2 he2 hb2
            exact covered_or_returned_bound hI1 hI2 (hI4 e2 he2 hb2)
        · refine ih st _ rs ?g1 ?g2 hI3 hIx ?g4 hlen hmf ?g6 h
          case g1 =>
            intro de hde
            rcases List.mem_append.mp hde with hde2 | hde2
            · exact hI1 de (hrestmem de hde2)
            · obtain ⟨ch, hch, rfl⟩ := List.mem_map.mp hde2
              exact ⟨hchwf ch hch, le_refl _⟩
          case g2 =>
            intro r hr de hde
            rcases List.mem_append.mp hde with hde2 | hde2
            · exact hI2 r hr de (hrestmem de hde2)
            · obtain ⟨ch, hch, rfl⟩ := List.mem_map.mp hde2
              exact le_trans (hI2 r hr _ hcmem)
                (le_trans hdle (hchkey ch hch))
          case g4 =>
            intro e2 he2 hb2
            rcases hI4 e2 he2 hb2 with ⟨de, hde, hcov⟩ | hret
            · rcases List.mem_cons.mp (hperm.subset hde) with rfl | hde2
              · rcases hcov with hcs | ⟨t, hnt, het⟩
                · exact absurd hcs (by simp)
                · cases QEntry.nodeE.inj hnt
                  obtain ⟨ch, hch, hech⟩ := (mem_segsOfList cs e2).mp het
                  refine Or.inl ⟨((ch.mbrOf).GetMinDist p, QEntry.nodeE ch), ?m2,
                    Or.inr ⟨ch, rfl, hech⟩⟩
                  case m2 =>
                    exact List.mem_append.mpr (Or.inr (List.mem_map.mpr ⟨ch, hch, rfl⟩))
              · exact Or.inl ⟨de, List.mem_append.mpr (Or.inl hde2), hcov⟩
            · exact Or.inr hret
          case g6 => exact fun _ => hbc
      · rename_i e
        have hd : d = segDistSq coords p e := hI1 _ hcmem
        have hg1 : (decide (k = st.bigCount) && !e.is_in_tiny_cc) = false := by
          have hx : decide (k = st.bigCount) = false := by simp; omega
          simp [hx]
        rw [hg1] at h
        rw [if_neg (by simp)] at h
        rcases hg2 : (decide (k = st.tinyCount) && e.is_in_tiny_cc) with _ | _
        · rw [hg2] at h
          rw [if_neg (by simp)] at h
          rw [if_pos (show (ltInf (segDistSq coords p e) none &&
            !epsEqInf (segDistSq coords p e) none) = true from rfl)] at h
          have hminq : ∀ y ∈ q, segDistSq coords p e ≤ y.1 := by
            intro y hy
            have h2 : d ≤ y.1 := hmin y hy
            rw [hd] at h2
            exact h2
          have hlast : ∀ r ∈ st.results, r.2.2 ≤ segDistSq coords p e := by
            intro r hr
            have h2 : r.2.2 ≤ d := hI2 r hr _ hcmem
            rw [hd] at h2
            exact h2
          set ph2 := SetForwardAndReverseWeightsOnPhantomNode coords e
            (FixUpRoundingIssue p (mkPhantomNode e (segFoot coords p e))) with hph2
          by_cases htiny : e.is_in_tiny_cc = true
          · rw [if_pos htiny] at h
            split at h
            · have hrs := incGo_nil h
              subst hrs
              exact flush_accept_sound coords p T q st.results e ph2
                hI1 hI2 hI3 hIx hI4 hminq hlast
            · refine ih ⟨st.minFound, st.bigCount, st.tinyCount + 1, st.inspected + 1,
                  st.results ++ [(e, ph2, segDistSq coords p e)]⟩
                rest rs ?t1 ?t2 ?t3 ?t4 ?t5 hlen hmf ?t6 h
              case t1 => exact fun de hde => hI1 de (hrestmem de hde)
              case t2 =>
                intro r hr de hde
                rcases List.mem_append.mp hr with hr2 | hr2
                · exact hI2 r hr2 de (hrestmem de hde)
                · simp only [List.mem_singleton] at hr2
                  subst hr2
                  exact hminq de (hrestmem de hde)
              case t3 =>
                show List.Chain' (· ≤ ·)
                  ((st.results ++ [(e, ph2, segDistSq coords p e)]).map (fun r => r.2.2))
                rw [List.map_append]
                refine chain_append_one hI3 ?th
                case th =>
                  intro y hy
                  obtain ⟨r, hr, rfl⟩ := List.mem_map.mp hy
                  exact hlast r hr
              case t4 =>
                intro r hr
                rcases List.mem_append.mp hr with hr2 | hr2
                · exact hIx r hr2
                · simp only [List.mem_singleton] at hr2
                  subst hr2
                  rfl
              case t5 =>
                intro e2 he2 hb2
                rcases hI4 e2 he2 hb2 with ⟨de, hde, hcov⟩ | hret
                · rcases List.mem_cons.mp (hperm.subset hde) with rfl | hde2
                  · rcases hcov with hcs | ⟨t, hnt, het⟩
                    · have he2e : e2 = e := (QEntry.segE.inj hcs).symm
                      subst he2e
                      exact Or.inr ⟨(e2, ph2, segDistSq coords p e2),
                        List.mem_append.mpr (Or.inr (by simp)), rfl⟩
                    · exact absurd hnt (by simp)
                  · exact Or.inl ⟨de, hde2, hcov⟩
                · obtain ⟨r, hr, hre⟩ := hret
                  exact Or.inr ⟨r, List.mem_append.mpr (Or.inl hr), hre⟩
              case t6 => exact fun _ => hbc
          · rw [if_neg htiny] at h
            have hltb : st.bigCount < st.minFound.length := by
              rw [hlen]
              exact hbc
            rw [if_pos hltb] at h
            split at h
            · have hrs := incGo_nil h
              subst hrs
              exact flush_accept_sound coords p T q st.results e ph2
                hI1 hI2 hI3 hIx hI4 hminq hlast
            · rename_i hfl
              have hkne : k ≠ st.bigCount + 1 := by
                intro hk2
                simp [hk2] at hfl
              refine ih ⟨st.minFound.set st.bigCount (some (segDistSq coords p e)),
                  st.bigCount + 1, st.tinyCount, st.inspected + 1,
                  st.results ++ [(e, ph2, segDistSq coords p e)]⟩
                rest rs ?u1 ?u2 ?u3 ?u4 ?u5 ?u6 ?u7 ?u8 h
              case u1 => exact fun de hde => hI1 de (hrestmem de hde)
              case u2 =>
                intro r hr de hde
                rcases List.mem_append.mp hr with hr2 | hr2
                · exact hI2 r hr2 de (hrestmem de hde)
                · simp only [List.mem_singleton] at hr2
                  subst hr2
                  exact hminq de (hrestmem de hde)
              case u3 =>
                show List.Chain' (· ≤ ·)
                  ((st.results ++ [(e, ph2, segDistSq coords p e)]).map (fun r => r.2.2))
                rw [List.map_append]
                refine chain_append_one hI3 ?uh
                case uh =>
                  intro y hy
                  obtain ⟨r, hr, rfl⟩ := List.mem_map.mp hy
                  exact hlast r hr
              case u4 =>
                intro r hr
                rcases List.mem_append.mp hr with hr2 | hr2
                · exact hIx r hr2
                · simp only [List.mem_singleton] at hr2
                  subst hr2
                  rfl
              case u5 =>
                intro e2 he2 hb2
                rcases hI4 e2 he2 hb2 with ⟨de, hde, hcov⟩ | hret
                · rcases List.mem_cons.mp (hperm.subset hde) with rfl | hde2
                  · rcases hcov with hcs | ⟨t, hnt, het⟩
                    · have he2e : e2 = e := (QEntry.segE.inj hcs).symm
                      subst he2e
                      exact Or.inr ⟨(e2, ph2, segDistSq coords p e2),
                        List.mem_append.mpr (Or.inr (by simp)), rfl⟩
                    · exact absurd hnt (by simp)
                  · exact Or.inl ⟨de, hde2, hcov⟩
                · obtain ⟨r, hr, hre⟩ := hret
                  exact Or.inr ⟨r, List.mem_append.mpr (Or.inl hr), hre⟩
              case u6 =>
                show (st.minFound.set st.bigCount (some (segDistSq coords p e))).length = k
                rw [List.length_set]
                exact hlen
              case u7 =>
                intro i hi1 hi2
                have hi1b : st.bigCount + 1 ≤ i := hi1
                show (st.minFound.set st.bigCount (some (segDistSq coords p e)))[i]? =
                  some none
                rw [set_getElem_ne _ _ _ _ (by omega)]
                exact hmf i (by omega) hi2
              case u8 =>
                intro _
                show st.bigCount + 1 < k
                omega
        · -- tiny-class-full: the segment is skipped
          rw [hg2] at h
          rw [if_pos rfl] at h
          have htiny : e.is_in_tiny_cc = true := by
            have hg3 := hg2
            simp only [Bool.and_eq_true, decide_eq_true_eq] at hg3
            exact hg3.2
          refine ih { st with inspected := st.inspected + 1 } rest rs
            ?s1 ?s2 hI3 hIx ?s4 hlen hmf ?s6 h
          case s1 => exact fun de hde => hI1 de (hrestmem de hde)
          case s2 => exact fun r hr de hde => hI2 r hr de (hrestmem de hde)
          case s4 =>
            intro e2 he2 hb2
            rcases hI4 e2 he2 hb2 with ⟨de, hde, hcov⟩ | hret
            · rcases List.mem_cons.mp (hperm.subset hde) with rfl | hde2
              · rcases hcov with hcs | ⟨t, hnt, het⟩
                · have he2e : e2 = e := (QEntry.segE.inj hcs).symm
                  subst he2e
                  rw [htiny] at hb2
                  cases hb2
                · exact absurd hnt (by simp)
              · exact Or.inl ⟨de, hde2, hcov⟩
            · exact Or.inr hret
          case s6 => exact fun _ => hbc

/-- C2: for every built index and `k ≥ 1`, a completed incremental query
returns its records in non-decreasing order of exact perpendicular
distance, and every unreturned big-component segment is at least as far
from `p` as every returned record. -/
theorem c2_incremental_ordering
    (coords : List Coord) (p : Coord) (zoom k maxChecked L B : Nat)
    (key : EdgeData → Int) (segs : List EdgeData) (T : RTree)
    (rs : List (EdgeData × PhantomNode × ℚ))
    (hk : 0 < k)
    (hok : ∀ e ∈ segs, coordOK (coordAt coords e.u) ∧ coordOK (coordAt coords e.v))
    (hb : buildRTree L B key segs coords = some T)
    (hrun : incrementalCore coords T p k maxChecked = .ok rs) :
    IncrementalFindPhantomNodeForCoordinate coords T p zoom k maxChecked =
      some (rs.map (fun r => r.2.1)) ∧
    List.Chain' (· ≤ ·) (rs.map (fun r => r.2.2)) ∧
    (∀ r ∈ rs, r.2.2 = segDistSq coords p r.1) ∧
    ∀ e ∈ T.segsOf, e.is_in_tiny_cc = false →
      (∃ r ∈ rs, r.1 = e) ∨ ∀ r ∈ rs, r.2.2 ≤ segDistSq coords p e := by
  have hwf := (buildRTree_WF hok hb).1
  have hmain := incGo_ok_sound coords p k maxChecked T hk (T.weight + 1)
    ⟨List.replicate k none, 0, 0, 0, []⟩ [((0 : ℚ), QEntry.nodeE T)] rs
    ?I1 ?I2 (by simp) (by simp) ?I4 (by simp) ?Imf (fun _ => hk) hrun
  case I1 =>
    intro de hde
    simp only [List.mem_singleton] at hde
    subst hde
    exact ⟨hwf, GetMinDist_nonneg _ p⟩
  case I2 =>
    intro r hr
    simp at hr
  case I4 =>
    intro e he hb2
    exact Or.inl ⟨((0 : ℚ), QEntry.nodeE T), by simp, Or.inr ⟨T, rfl, he⟩⟩
  case Imf =>
    intro i h0 hik
    exact replicate_getElem_none k i hik
  refine ⟨?first, hmain.1, hmain.2.1, hmain.2.2⟩
  case first =>
    rw [IncrementalFindPhantomNodeForCoordinate, hrun]

theorem c2_incremental_ordering_witness :
    IncrementalFindPhantomNodeForCoordinate ex5coords ex5tree exOrigin 18 1 1000 =
      some (ex2results.map (fun r => r.2.1)) ∧
    List.Chain' (· ≤ ·) (ex2results.map (fun r => r.2.2)) ∧
    (∀ r ∈ ex2results, r.2.2 = segDistSq ex5coords exOrigin r.1) ∧
    ∀ e ∈ ex5tree.segsOf, e.is_in_tiny_cc = false →
      (∃ r ∈ ex2results, r.1 = e) ∨
        ∀ r ∈ ex2results, r.2.2 ≤ segDistSq ex5coords exOrigin e :=
  c2_incremental_ordering ex5coords exOrigin 18 1 1000 1 2 exKey
    [ex5segT, ex5segB] ex5tree ex2results (by decide) (by decide)
    (by with_unfolding_all rfl) (by with_unfolding_all rfl)

theorem scanLeaf_mmd (coords : List Coord) (p : Coord) (ig : Bool) :
    ∀ (objs : List EdgeData) (st : FindState),
    (scanLeaf coords p ig objs st).min_max_dist = st.min_max_dist := by
  intro objs
  induction objs with
  | nil => intro st; rfl
  | cons e objs ih =>
    intro st
    rw [scanLeaf]
    split
    · exact ih st
    · dsimp only
      split
      · rw [ih]
      · exact ih st

theorem scanLeaf_le (coords : List Coord) (p : Coord) (ig : Bool) :
    ∀ (objs : List EdgeData) (st : FindState) (m0 : ℚ),
    st.min_dist = some m0 →
    ∃ m, (scanLeaf coords p ig objs st).min_dist = some m ∧ m ≤ m0 := by
  intro objs
  induction objs with
  | nil => intro st m0 h; exact ⟨m0, h, le_refl m0⟩
  | cons e objs ih =>
    intro st m0 h
    rw [scanLeaf]
    split
    · exact ih st m0 h
    · dsimp only
      split
      · rename_i hacc
        rw [h] at hacc
        simp only [ltInf, epsEqInf, epsilonCompare, Bool.and_eq_true,
          decide_eq_true_eq, Bool.not_eq_true', beq_eq_false_iff_ne] at hacc
        obtain ⟨m, hm, hle⟩ := ih ⟨some (segDistSq coords p e), st.min_max_dist,
          some (mkPhantomNode e (segFoot coords p e), e)⟩ (segDistSq coords p e) rfl
        exact ⟨m, hm, le_trans hle (le_of_lt hacc.1)⟩
      · exact ih st m0 h

theorem scanLeaf_dom (coords : List Coord) (p : Coord) (ig : Bool) :
    ∀ (objs : List EdgeData) (st : FindState),
    (∀ e ∈ objs, (ig && e.is_in_tiny_cc) = false) →
    ∀ e ∈ objs,
    ∃ m, (scanLeaf coords p ig objs st).min_dist = some m ∧
      m ≤ segDistSq coords p e := by
  intro objs
  induction objs with
  | nil => intro st _ e he; simp at he
  | cons e2 objs ih =>
    intro st heff e he
    rw [scanLeaf]
    split
    · rename_i hskip
      rw [heff e2 (by simp)] at hskip
      cases hskip
    · dsimp only
      rcases List.mem_cons.mp he with rfl | he2
      · split
        · exact scanLeaf_le coords p ig objs ⟨some (segDistSq coords p e),
            st.min_max_dist, some (mkPhantomNode e (segFoot coords p e), e)⟩
            (segDistSq coords p e) rfl
        · rename_i hrej
          rcases hcur : st.min_dist with _ | m0
          · rw [hcur] at hrej
            simp [ltInf, epsEqInf] at hrej
          · rw [hcur] at hrej
            simp only [ltInf, epsEqInf, epsilonCompare, Bool.and_eq_true,
              decide_eq_true_eq, Bool.not_eq_true', beq_eq_false_iff_ne,
              not_and, not_ne_iff] at hrej
            have hm0 : m0 ≤ segDistSq coords p e := by
              by_cases hlt : segDistSq coords p e < m0
              · exact le_of_eq (hrej hlt).symm
              · exact le_of_not_lt hlt
            obtain ⟨m, hm, hle⟩ := scanLeaf_le coords p ig objs st m0 hcur
            exact ⟨m, hm, le_trans hle hm0⟩
      · split
        · exact ih _ (fun x hx => heff x (by simp [hx])) e he2
        · exact ih st (fun x hx => heff x (by simp [hx])) e he2

theorem scanLeaf_resOK (coords : List Coord) (p : Coord) (ig : Bool)
    (T : RTree) :
    ∀ (objs : List EdgeData) (st : FindState),
    (∀ e ∈ objs, e ∈ T.segsOf) →
    resOK coords p T st →
    resOK coords p T (scanLeaf coords p ig objs st) := by
  intro objs
  induction objs with
  | nil => intro st _ h; exact h
  | cons e objs ih =>
    intro st hsub h
    rw [scanLeaf]
    split
    · exact ih st (fun x hx => hsub x (by simp [hx])) h
    · dsimp only
      split
      · refine ih _ (fun x hx => hsub x (by simp [hx])) ?hnew
        case hnew =>
          exact Or.inr ⟨segDistSq coords p e, mkPhantomNode e (segFoot coords p e), e,
            rfl, rfl, rfl, hsub e (by simp)⟩
      · exact ih st (fun x hx => hsub x (by simp [hx])) h

theorem exploreTreeNode_entries (p : Coord) (md : Option ℚ) :
    ∀ (cs : List RTree) (mmd : Option ℚ),
    ∀ de ∈ (exploreTreeNode p md cs mmd).2,
      ∃ ch ∈ cs, de = (((ch.mbrOf).GetMinDist p : ℚ), ch) := by
  intro cs
  induction cs with
  | nil => intro mmd de hde; simp [exploreTreeNode] at hde
  | cons c cs ih =>
    intro mmd de hde
    rw [exploreTreeNode] at hde
    dsimp only at hde
    split at hde
    · obtain ⟨ch, hch, he⟩ := ih _ de hde
      exact ⟨ch, by simp [hch], he⟩
    · split at hde
      · obtain ⟨ch, hch, he⟩ := ih _ de hde
        exact ⟨ch, by simp [hch], he⟩
      · rcases List.mem_cons.mp hde with rfl | hde2
        · exact ⟨c, by simp, rfl⟩
        · obtain ⟨ch, hch, he⟩ := ih _ de hde2
          exact ⟨ch, by simp [hch], he⟩

theorem exploreTreeNode_mmd_le (p : Coord) (md : Option ℚ) :
    ∀ (cs : List RTree) (mmd : Option ℚ) (m0 : ℚ),
    mmd = some m0 →
    ∃ m, (exploreTreeNode p md cs mmd).1 = some m ∧ m ≤ m0 := by
  intro cs
  induction cs with
  | nil => intro mmd m0 h; exact ⟨m0, h, le_refl m0⟩
  | cons c cs ih =>
    intro mmd m0 h
    subst h
    rw [exploreTreeNode]
    dsimp only
    have hstep : minInf (some m0) ((RTree.mbrOf c).GetMinMaxDist p) =
        some (min m0 ((RTree.mbrOf c).GetMinMaxDist p)) := rfl
    split
    · obtain ⟨m, hm, hle⟩ := ih _ _ hstep
      exact ⟨m, hm, le_trans hle (min_le_left _ _)⟩
    · split
      · obtain ⟨m, hm, hle⟩ := ih _ _ hstep
        exact ⟨m, hm, le_trans hle (min_le_left _ _)⟩
      · obtain ⟨m, hm, hle⟩ := ih _ _ hstep
        exact ⟨m, hm, le_trans hle (min_le_left _ _)⟩

theorem exploreTreeNode_cases (p : Coord) (md : Option ℚ) :
    ∀ (cs : List RTree) (mmd : Option ℚ) (m : ℚ),
    (exploreTreeNode p md cs mmd).1 = some m →
    mmd = some m ∨ ∃ ch ∈ cs, (ch.mbrOf).GetMinMaxDist p = m := by
  intro cs
  induction cs with
  | nil => intro mmd m h; exact Or.inl h
  | cons c cs ih =>
    intro mmd m h
    rw [exploreTreeNode] at h
    dsimp only at h
    have hnext : ∀ hh : (exploreTreeNode p md cs
        (minInf mmd ((RTree.mbrOf c).GetMinMaxDist p))).1 = some m,
        mmd = some m ∨ ∃ ch ∈ c :: cs, (ch.mbrOf).GetMinMaxDist p = m := by
      intro hh
      rcases ih _ m hh with h2 | ⟨ch, hch, he⟩
      · rcases hmm : mmd with _ | m0
        · rw [hmm] at h2
          simp only [minInf, Option.some.injEq] at h2
          exact Or.inr ⟨c, by simp, h2⟩
        · rw [hmm] at h2
          simp only [minInf, Option.some.injEq] at h2
          rcases min_cases m0 ((RTree.mbrOf c).GetMinMaxDist p) with ⟨hx, _⟩ | ⟨hx, _⟩
          · rw [hx] at h2
            exact Or.inl (by rw [h2])
          · rw [hx] at h2
            exact Or.inr ⟨c, by simp, h2⟩
      · exact Or.inr ⟨ch, by simp [hch], he⟩
    split at h
    · exact hnext h
    · split at h
      · exact hnext h
      · exact hnext h

theorem exploreTreeNode_tri (p : Coord) (md : Option ℚ) :
    ∀ (cs : List RTree) (mmd : Option ℚ),
    ∀ ch ∈ cs,
      (((ch.mbrOf).GetMinDist p : ℚ), ch) ∈ (exploreTreeNode p md cs mmd).2 ∨
      (∃ m1, md = some m1 ∧ m1 < (ch.mbrOf).GetMinDist p) ∨
      (∃ m, (exploreTreeNode p md cs mmd).1 = some m ∧
        m < (ch.mbrOf).GetMinDist p) := by
  intro cs
  induction cs with
  | nil => intro mmd ch hch; simp at hch
  | cons c cs ih =>
    intro mmd ch hch
    rw [exploreTreeNode]
    dsimp only
    rcases List.mem_cons.mp hch with rfl | hch2
    · -- the head child itself
      split
      · rename_i hpr
        -- pruned by the running MINMAXDIST bound
        rcases hmm : minInf mmd ((RTree.mbrOf ch).GetMinMaxDist p) with _ | m2
        · rw [hmm] at hpr
          simp [gtInf] at hpr
        · rw [hmm] at hpr
          simp only [gtInf, decide_eq_true_eq] at hpr
          obtain ⟨m, hm, hle⟩ := exploreTreeNode_mmd_le p md cs (some m2) m2 rfl
          exact Or.inr (Or.inr ⟨m, hm, lt_of_le_of_lt hle hpr⟩)
      · split
        · rename_i hpr
          rcases hmd : md with _ | m1
          · rw [hmd] at hpr
            simp [gtInf] at hpr
          · rw [hmd] at hpr
            simp only [gtInf, decide_eq_true_eq] at hpr
            exact Or.inr (Or.inl ⟨m1, rfl, hpr⟩)
        · exact Or.inl (by simp)
    · -- a later child: all three branches recurse with the updated bound
      split
      · exact ih _ ch hch2
      · split
        · exact ih _ ch hch2
        · rcases ih (minInf mmd ((RTree.mbrOf c).GetMinMaxDist p)) ch hch2 with
            h1 | h2 | ⟨m, hm, hlt⟩
          · exact Or.inl (by simp [h1])
          · exact Or.inr (Or.inl h2)
          · exact Or.inr (Or.inr ⟨m, hm, hlt⟩)

theorem findGo_sound (coords : List Coord) (p : Coord) (ig : Bool) (T : RTree)
    (heff : ∀ e ∈ T.segsOf, (ig && e.is_in_tiny_cc) = false) :
    ∀ (fuel : Nat) (st : FindState) (q : List (ℚ × RTree)) (fs : FindState),
    (∀ de ∈ q, fentOK coords p T de.1 de.2) →
    resOK coords p T st →
    (∀ e ∈ T.segsOf, fCovered q e ∨ mdle st (segDistSq coords p e) ∨
      mmdLt st (segDistSq coords p e)) →
    (∀ m, st.min_max_dist = some m → ∃ e2 ∈ T.segsOf,
      segDistSq coords p e2 ≤ m ∧
      (fCovered q e2 ∨ mdle st (segDistSq coords p e2))) →
    findGo coords p ig fuel st q = some fs →
    resOK coords p T fs ∧
    ∀ e ∈ T.segsOf, ∃ m, fs.min_dist = some m ∧ m ≤ segDistSq coords p e := by
  intro fuel
  induction fuel with
  | zero =>
    intro st q fs _ _ _ _ h
    simp [findGo] at h
  | succ fuel ih =>
    intro st q fs hA hB hC hD h
    rw [findGo] at h
    rcases hpop : popMinQ q with _ | ⟨⟨d, t⟩, rest⟩
    · rw [hpop] at h
      cases h
      have hqnil : q = [] := popMinQ_eq_none.mp hpop
      subst hqnil
      refine ⟨hB, ?done⟩
      case done =>
        intro e he
        rcases hC e he with ⟨de, hde, _⟩ | ⟨m, hm, hle⟩ | ⟨m, hmm, hlt⟩
        · simp at hde
        · exact ⟨m, hm, hle⟩
        · obtain ⟨e2, he2, hle2, hcov2⟩ := hD m hmm
          rcases hcov2 with ⟨de, hde, _⟩ | ⟨m2, hm2, hle3⟩
          · simp at hde
          · exact ⟨m2, hm2, le_of_lt (lt_of_le_of_lt (le_trans hle3 hle2) hlt)⟩
    · have hperm := popMinQ_perm hpop
      have hcmem : ((d, t) : ℚ × RTree) ∈ q := hperm.symm.subset (by simp)
      have hrestmem : ∀ de ∈ rest, de ∈ q := fun de hde =>
        hperm.symm.subset (by simp [hde])
      obtain ⟨hwt, hdle, hsubT⟩ := hA _ hcmem
      have hdseg : ∀ e ∈ t.segsOf, d ≤ segDistSq coords p e := fun e he =>
        le_trans hdle (seg_of_WF_bound p hwt he)
      simp only [hpop] at h
      split at h
      · -- pruned pop
        rename_i hpr
        rcases Bool.or_eq_true _ _ |>.mp hpr with hpr2 | hpr2
        · -- pruned by the MINMAXDIST bound
          rcases hmm : st.min_max_dist with _ | m
          · rw [hmm] at hpr2
            simp [gtInf] at hpr2
          · rw [hmm] at hpr2
            simp only [gtInf, decide_eq_true_eq] at hpr2
            refine ih st rest fs ?pa ?pb ?pc ?pd h
            case pa => exact fun de hde => hA de (hrestmem de hde)
            case pb => exact hB
            case pc =>
              intro e he
              rcases hC e he with ⟨de, hde, hecov⟩ | h2 | h3
              · rcases List.mem_cons.mp (hperm.subset hde) with rfl | hde2
                · exact Or.inr (Or.inr ⟨m, hmm, lt_of_lt_of_le hpr2 (hdseg e hecov)⟩)
                · exact Or.inl ⟨de, hde2, hecov⟩
              · exact Or.inr (Or.inl h2)
              · exact Or.inr (Or.inr h3)
            case pd =>
              intro m0 hm0
              obtain ⟨e2, he2, hle2, hcov2⟩ := hD m0 hm0
              rcases hcov2 with ⟨de, hde, hecov⟩ | h2
              · rcases List.mem_cons.mp (hperm.subset hde) with rfl | hde2
                · exfalso
                  rw [hmm] at hm0
                  cases Option.some.inj hm0
                  exact absurd (lt_of_lt_of_le hpr2 (le_trans (hdseg e2 hecov) hle2))
                    (lt_irrefl _)
                · exact ⟨e2, he2, hle2, Or.inl ⟨de, hde2, hecov⟩⟩
              · exact ⟨e2, he2, hle2, Or.inr h2⟩
        · -- pruned by the current minimum
          rcases hmd : st.min_dist with _ | m1
          · rw [hmd] at hpr2
            simp [gtInf] at hpr2
          · rw [hmd] at hpr2
            simp only [gtInf, decide_eq_true_eq] at hpr2
            refine ih st rest fs ?qa ?qb ?qc ?qd h
            case qa => exact fun de hde => hA de (hrestmem de hde)
            case qb => exact hB
            case qc =>
              intro e he
              rcases hC e he with ⟨de, hde, hecov⟩ | h2 | h3
              · rcases List.mem_cons.mp (hperm.subset hde) with rfl | hde2
                · exact Or.inr (Or.inl ⟨m1, hmd,
                    le_of_lt (lt_of_lt_of_le hpr2 (hdseg e hecov))⟩)
                · exact Or.inl ⟨de, hde2, hecov⟩
              · exact Or.inr (Or.inl h2)
              · exact Or.inr (Or.inr h3)
            case qd =>
              intro m0 hm0
              obtain ⟨e2, he2, hle2, hcov2⟩ := hD m0 hm0
              rcases hcov2 with ⟨de, hde, hecov⟩ | h2
              · rcases List.mem_cons.mp (hperm.subset hde) with rfl | hde2
                · exact ⟨e2, he2, hle2, Or.inr ⟨m1, hmd,
                    le_of_lt (lt_of_lt_of_le hpr2 (hdseg e2 hecov))⟩⟩
                · exact ⟨e2, he2, hle2, Or.inl ⟨de, hde2, hecov⟩⟩
              · exact ⟨e2, he2, hle2, Or.inr h2⟩
      · -- expanded pop
        split at h
        · -- leaf node: scan the objects
          rename_i mbr objs
          have hsubobjs : ∀ e ∈ objs, e ∈ T.segsOf := hsubT
          have heffobjs : ∀ e ∈ objs, (ig && e.is_in_tiny_cc) = false :=
            fun e he => heff e (hsubobjs e he)
          refine ih (scanLeaf coords p ig objs st) rest fs ?la ?lb ?lc ?ld h
          case la => exact fun de hde => hA de (hrestmem de hde)
          case lb => exact scanLeaf_resOK coords p ig T objs st hsubobjs hB
          case lc =>
            intro e he
            rcases hC e he with ⟨de, hde, hecov⟩ | ⟨m0, hm0, hle0⟩ | ⟨m0, hm0, hlt0⟩
            · rcases List.mem_cons.mp (hperm.subset hde) with rfl | hde2
              · obtain ⟨m, hm, hle⟩ := scanLeaf_dom coords p ig objs st heffobjs e hecov
                exact Or.inr (Or.inl ⟨m, hm, hle⟩)
              · exact Or.inl ⟨de, hde2, hecov⟩
            · obtain ⟨m, hm, hle⟩ := scanLeaf_le coords p ig objs st m0 hm0
              exact Or.inr (Or.inl ⟨m, hm, le_trans hle hle0⟩)
            · exact Or.inr (Or.inr ⟨m0, by rw [scanLeaf_mmd]; exact hm0, hlt0⟩)
          case ld =>
            intro m0 hm0
            rw [scanLeaf_mmd] at hm0
            obtain ⟨e2, he2, hle2, hcov2⟩ := hD m0 hm0
            rcases hcov2 with ⟨de, hde, hecov⟩ | ⟨m1, hm1, hle1⟩
            · rcases List.mem_cons.mp (hperm.subset hde) with rfl | hde2
              · obtain ⟨m, hm, hle⟩ := scanLeaf_dom coords p ig objs st heffobjs e2 hecov
                exact ⟨e2, he2, hle2, Or.inr ⟨m, hm, hle⟩⟩
              · exact ⟨e2, he2, hle2, Or.inl ⟨de, hde2, hecov⟩⟩
            · obtain ⟨m, hm, hle⟩ := scanLeaf_le coords p ig objs st m1 hm1
              exact ⟨e2, he2, hle2, Or.inr ⟨m, hm, le_trans hle hle1⟩⟩
        · -- inner node: explore the children
          rename_i mbr cs
          have hwfc : ∀ ch ∈ cs, WF coords ch := by
            cases hwt with
            | innerWF mbr cs hne hwfc hsub hatt => exact hwfc
          have hchseg : ∀ ch ∈ cs, ∀ e ∈ ch.segsOf, e ∈ T.segsOf := by
            intro ch hch e he
            exact hsubT e ((mem_segsOfList cs e).mpr ⟨ch, hch, he⟩)
          have hchbound : ∀ ch ∈ cs, ∀ e ∈ ch.segsOf,
              (ch.mbrOf).GetMinDist p ≤ segDistSq coords p e :=
            fun ch hch e he => seg_of_WF_bound p (hwfc ch hch) he
          refine ih ⟨st.min_dist,
              (exploreTreeNode p st.min_dist cs st.min_max_dist).1, st.res⟩
            (rest ++ (exploreTreeNode p st.min_dist cs st.min_max_dist).2) fs
            ?na ?nb ?nc ?nd h
          case na =>
            intro de hde
            rcases List.mem_append.mp hde with hde2 | hde2
            · exact hA de (hrestmem de hde2)
            · obtain ⟨ch, hch, rfl⟩ :=
                exploreTreeNode_entries p st.min_dist cs st.min_max_dist de hde2
              exact ⟨hwfc ch hch, le_refl _, hchseg ch hch⟩
          case nb =>
            rcases hB with ⟨h1, h2⟩ | ⟨m, ph0, e0, h1, h2, h3, h4⟩
            · exact Or.inl ⟨h1, h2⟩
            · exact Or.inr ⟨m, ph0, e0, h1, h2, h3, h4⟩
          case nc =>
            intro e he
            rcases hC e he with ⟨de, hde, hecov⟩ | ⟨m0, hm0, hle0⟩ | ⟨m0, hm0, hlt0⟩
            · rcases List.mem_cons.mp (hperm.subset hde) with rfl | hde2
              · obtain ⟨ch, hch, hech⟩ := (mem_segsOfList cs e).mp hecov
                rcases exploreTreeNode_tri p st.min_dist cs st.min_max_dist ch hch with
                  hpush | ⟨m1, hm1, hlt1⟩ | ⟨m1, hm1, hlt1⟩
                · exact Or.inl ⟨(((ch.mbrOf).GetMinDist p : ℚ), ch),
                    List.mem_append.mpr (Or.inr hpush), hech⟩
                · exact Or.inr (Or.inl ⟨m1, hm1,
                    le_of_lt (lt_of_lt_of_le hlt1 (hchbound ch hch e hech))⟩)
                · exact Or.inr (Or.inr ⟨m1, hm1,
                    lt_of_lt_of_le hlt1 (hchbound ch hch e hech)⟩)
              · exact Or.inl ⟨de, List.mem_append.mpr (Or.inl hde2), hecov⟩
            · exact Or.inr (Or.inl ⟨m0, hm0, hle0⟩)
            · obtain ⟨m, hm, hle⟩ :=
                exploreTreeNode_mmd_le p st.min_dist cs st.min_max_dist m0 hm0
              exact Or.inr (Or.inr ⟨m, hm, lt_of_le_of_lt hle hlt0⟩)
          case nd =>
            intro m0 hm0
            have hm0b : (exploreTreeNode p st.min_dist cs st.min_max_dist).1 =
                some m0 := hm0
            rcases exploreTreeNode_cases p st.min_dist cs st.min_max_dist m0 hm0b with
              hold | ⟨ch, hch, hmmx⟩
            · obtain ⟨e2, he2, hle2, hcov2⟩ := hD m0 hold
              rcases hcov2 with ⟨de, hde, hecov⟩ | ⟨m1, hm1, hle1⟩
              · rcases List.mem_cons.mp (hperm.subset hde) with rfl | hde2
                · obtain ⟨ch, hch, hech⟩ := (mem_segsOfList cs e2).mp hecov
                  rcases exploreTreeNode_tri p st.min_dist cs st.min_max_dist ch hch with
                    hpush | ⟨m1, hm1, hlt1⟩ | ⟨m1, hm1, hlt1⟩
                  · exact ⟨e2, he2, hle2, Or.inl ⟨(((ch.mbrOf).GetMinDist p : ℚ), ch),
                      List.mem_append.mpr (Or.inr hpush), hech⟩⟩
                  · exact ⟨e2, he2, hle2, Or.inr ⟨m1, hm1,
                      le_of_lt (lt_of_lt_of_le hlt1 (hchbound ch hch e2 hech))⟩⟩
                  · exfalso
                    rw [hm0b] at hm1
                    cases Option.some.inj hm1
                    exact absurd (lt_of_lt_of_le hlt1
                      (le_trans (hchbound ch hch e2 hech) hle2)) (lt_irrefl _)
                · exact ⟨e2, he2, hle2, Or.inl ⟨de,
                    List.mem_append.mpr (Or.inl hde2), hecov⟩⟩
              · exact ⟨e2, he2, hle2, Or.inr ⟨m1, hm1, hle1⟩⟩
            · obtain ⟨e2, he2, hle2⟩ := minmax_guarantee p (hwfc ch hch)
              rw [hmmx] at hle2
              refine ⟨e2, hchseg ch hch e2 he2, hle2, ?cov2⟩
              case cov2 =>
                rcases exploreTreeNode_tri p st.min_dist cs st.min_max_dist ch hch with
                  hpush | ⟨m1, hm1, hlt1⟩ | ⟨m1, hm1, hlt1⟩
                · exact Or.inl ⟨(((ch.mbrOf).GetMinDist p : ℚ), ch),
                    List.mem_append.mpr (Or.inr hpush), he2⟩
                · exact Or.inr ⟨m1, hm1,
                    le_of_lt (lt_of_lt_of_le hlt1 (hchbound ch hch e2 he2))⟩
                · exfalso
                  rw [hm0b] at hm1
                  cases Option.some.inj hm1
                  exact absurd (lt_of_lt_of_le hlt1
                    (le_trans (hchbound ch hch e2 he2) hle2)) (lt_irrefl _)

/-- C1 (amended): with the tiny-component filter inactive — either
`zoom > 14` or no indexed segment is tiny — the branch-and-bound search
returns a segment of the index at minimal perpendicular distance. -/
theorem c1_amended_no_filter
    (coords : List Coord) (p : Coord) (zoom L B : Nat) (key : EdgeData → Int)
    (segs : List EdgeData) (T : RTree) (ph : PhantomNode) (e0 : EdgeData)
    (hok : ∀ e ∈ segs, coordOK (coordAt coords e.u) ∧ coordOK (coordAt coords e.v))
    (hb : buildRTree L B key segs coords = some T)
    (hnof : 14 < zoom ∨ ∀ e ∈ T.segsOf, e.is_in_tiny_cc = false)
    (hres : FindPhantomNodeForCoordinate coords T p zoom = some (ph, e0)) :
    e0 ∈ T.segsOf ∧
    ∀ e ∈ T.segsOf, segDistSq coords p e0 ≤ segDistSq coords p e := by
  have hwf := (buildRTree_WF hok hb).1
  have heff : ∀ e ∈ T.segsOf, (decide (zoom ≤ 14) && e.is_in_tiny_cc) = false := by
    rcases hnof with hz | hall
    · intro e he
      have hzf : decide (zoom ≤ 14) = false := by
        simp only [decide_eq_false_iff_not]
        omega
      simp [hzf]
    · intro e he
      simp [hall e he]
  rw [FindPhantomNodeForCoordinate] at hres
  rcases hgo : findGo coords p (decide (zoom ≤ 14)) (T.weight + 1)
      ⟨none, none, none⟩ [((0 : ℚ), T)] with _ | fs
  · simp only [hgo] at hres
    cases hres
  · simp only [hgo] at hres
    have hia : ∀ de ∈ ([((0 : ℚ), T)] : List (ℚ × RTree)),
        fentOK coords p T de.1 de.2 := by
      intro de hde
      simp only [List.mem_singleton] at hde
      subst hde
      exact ⟨hwf, GetMinDist_nonneg _ p, fun e he => he⟩
    have hib : resOK coords p T ⟨none, none, none⟩ := Or.inl ⟨rfl, rfl⟩
    have hic : ∀ e ∈ T.segsOf,
        fCovered [((0 : ℚ), T)] e ∨
          mdle ⟨none, none, none⟩ (segDistSq coords p e) ∨
          mmdLt ⟨none, none, none⟩ (segDistSq coords p e) := by
      intro e he
      exact Or.inl ⟨((0 : ℚ), T), by simp, he⟩
    have hid : ∀ m, (⟨none, none, none⟩ : FindState).min_max_dist = some m →
        ∃ e2 ∈ T.segsOf, segDistSq coords p e2 ≤ m ∧
          (fCovered [((0 : ℚ), T)] e2 ∨
            mdle ⟨none, none, none⟩ (segDistSq coords p e2)) := by
      intro m hm
      cases hm
    obtain ⟨hro, hall⟩ := findGo_sound coords p (decide (zoom ≤ 14)) T heff
      (T.weight + 1) ⟨none, none, none⟩ [((0 : ℚ), T)] fs hia hib hic hid hgo
    rcases hfr : fs.res with _ | ⟨ph0, e1⟩
    · simp only [hfr] at hres
      cases hres
    · simp only [hfr] at hres
      simp only [Option.some.injEq, Prod.mk.injEq] at hres
      obtain ⟨hph, he0⟩ := hres
      subst he0
      rcases hro with ⟨h1, h2⟩ | ⟨m, ph1, e2, h1, h2, h3, h4⟩
      · rw [hfr] at h2
        cases h2
      · rw [hfr] at h2
        obtain ⟨hph1, he2⟩ := Prod.mk.injEq .. ▸ Option.some.inj h2
        subst he2
        refine ⟨h4, ?goal⟩
        case goal =>
          intro e he
          obtain ⟨m2, hm2, hle⟩ := hall e he
          rw [h1] at hm2
          cases Option.some.inj hm2
          rw [← h3]
          exact hle

theorem c1_amended_witness :
    ex6seg ∈ ex6tree.segsOf ∧
    ∀ e ∈ ex6tree.segsOf,
      segDistSq ex6coords exOrigin ex6seg ≤ segDistSq ex6coords exOrigin e :=
  c1_amended_no_filter ex6coords exOrigin 18 1 2 exKey [ex6seg] ex6tree
    ex6phantom ex6seg (by decide) (by with_unfolding_all rfl)
    (Or.inl (by omega)) (by with_unfolding_all rfl)
